import Mathlib

/-!
Verification development for the GEB spatial-discretization core (HRUs.py).

The Python source is shallowly embedded: numpy 1-D arrays become `List`s,
2-D rasters become `List (List _)`, machine floats become `ℚ` (exact
rationals; the source's "within floating tolerance" statements become exact
equalities), failing `assert`s / raised exceptions become `Except.error` or
`Option.none`, and numba loops become structural recursions.  Each
definition carries a comment pointing to the source lines it embeds.
-/

/-! ### Generic list helpers used by the embedding -/

/-- Slice `l[a:b]` of a list, numpy style (out-of-range indices clamp). -/
def sliceL {α : Type _} (l : List α) (a b : ℕ) : List α :=
  (l.drop a).take (b - a)

/-- Slice assignment `out[a:b] = v` (numpy semantics when `a ≤ b ≤ out.length`
and `v.length = b - a`, which is the only way the embedded code uses it). -/
def setSlice {α : Type _} (out : List α) (a b : ℕ) (v : List α) : List α :=
  out.take a ++ v ++ out.drop b

/-- Exclusive start of grid cell `i`'s unit range: `j` for `i = 0`, else
`var_to_HRU[i-1]` (`j` is the index base, 0 at top level). -/
def rangeStart (j : ℕ) (var_to_HRU : List ℕ) (i : ℕ) : ℕ :=
  if i = 0 then j else var_to_HRU.getD (i - 1) 0

/-- Boolean check that `p ≤ c₀ ≤ c₁ ≤ ...` along a list (monotone
non-decreasing boundaries). -/
def chainLE : ℕ → List ℕ → Bool
  | _, [] => true
  | p, c :: cs => (decide (p ≤ c)) && chainLE c cs

/-- Boolean check that `p < c₀ < c₁ < ...` along a list (strictly increasing
boundaries; every cell's unit range is non-empty). -/
def chainLT : ℕ → List ℕ → Bool
  | _, [] => true
  | p, c :: cs => (decide (p < c)) && chainLT c cs

/-- Boolean check that every per-cell slice of `ratio` along the boundaries
has a non-zero sum. -/
def rangesSumNZ (ratio : List ℚ) : ℕ → List ℕ → Bool
  | _, [] => true
  | prev, c :: cs => (decide ((sliceL ratio prev c).sum ≠ 0)) && rangesSumNZ ratio c cs

/-- Embedding of `np.insert(a, i, v, axis=0)`: insert `v` before position `i`. -/
def np_insert {α : Type _} (a : List α) (i : ℕ) (v : α) : List α :=
  a.take i ++ v :: a.drop i

/-- Embedding of the slice increment `l[c:] += 1` (HRUs.py line 613). -/
def addOneFrom (l : List ℕ) (c : ℕ) : List ℕ :=
  l.take c ++ (l.drop c).map (· + 1)

/-! ### Compressed Grid (HRUs.py, class Grid) -/

/-- Embedding of `Grid.compress` (HRUs.py lines 108-117):
`array.ravel()[mask_flat == False]` — keep the entries of the flattened
array at the positions where the flattened mask is `False`.  The 2-D ravel
is left implicit: both arguments are already flat. -/
def compress {α : Type _} (mask_flat : List Bool) (array : List α) : List α :=
  ((array.zip mask_flat).filter (fun p => p.2 == false)).map Prod.fst

/-- Embedding of `Grid.decompress` (HRUs.py lines 119-136): start from a
full array of `fillvalue` and scatter the compressed values back into the
non-masked positions (`outmap[mask_flat == False] = array`).  numpy raises
when the compressed array's length differs from the number of non-masked
cells; that failure is modelled by `none`.  The final 2-D reshape is left
implicit (the result is the flattened full array). -/
def decompress {α : Type _} : List Bool → List α → α → Option (List α)
  | [], [], _ => some []
  | [], _ :: _, _ => none
  | true :: m, xs, f =>
    match decompress m xs f with
    | some r => some (f :: r)
    | none => none
  | false :: _, [], _ => none
  | false :: m, x :: xs, f =>
    match decompress m xs f with
    | some r => some (x :: r)
    | none => none

/-! ### Grid to HRU converter (HRUs.py, Data.to_HRU_numba / Data.to_grid_numba) -/

/-- Per-cell chunk written by the `fn is None` branch of `to_HRU_numba`
(HRUs.py lines 471-475): `output_data[prev_index:cell_index] = data[i]` —
the cell's value broadcast over the cell's unit range.  The slice extent
equals the corresponding `land_use_ratio` slice since the output array has
`land_use_ratio.size` entries. -/
def chunkCopy (d : ℚ) (cs : List ℚ) : List ℚ :=
  cs.map (fun _ => d)

/-- Per-cell chunk written by the `fn == 'mean'` branch of `to_HRU_numba`
(HRUs.py lines 476-481):
`output_data[prev:cell] = data[i] / cell_sizes.sum() * cell_sizes`. -/
def chunkMean (d : ℚ) (cs : List ℚ) : List ℚ :=
  cs.map (fun w => d / cs.sum * w)

/-- The per-cell loop of `to_HRU_numba` (HRUs.py lines 471-481): walk the
`(data[i], var_to_HRU[i])` pairs, writing each cell's chunk into
`output_data[prev_index:cell_index]` and advancing `prev_index`. -/
def convertCells (chunk : ℚ → List ℚ → List ℚ) (ratio : List ℚ) :
    List (ℚ × ℕ) → List ℚ → ℕ → List ℚ
  | [], out, _ => out
  | (d, c) :: rest, out, prev =>
    convertCells chunk ratio rest (setSlice out prev c (chunk d (sliceL ratio prev c))) c

/-- Concatenation of the per-cell chunks (the value `convertCells` computes
when the boundaries tile the output array; used to reason about it). -/
def chunksOf (chunk : ℚ → List ℚ → List ℚ) (ratio : List ℚ) :
    List (ℚ × ℕ) → ℕ → List ℚ
  | [], _ => []
  | (d, c) :: rest, prev => chunk d (sliceL ratio prev c) ++ chunksOf chunk ratio rest c

/-- Embedding of `Data.to_HRU_numba` (HRUs.py lines 452-485).  The two
leading `assert`s and the `NotImplementedError` for an unknown `fn` become
`Except.error`. -/
def to_HRU_numba (data : List ℚ) (var_to_HRU : List ℕ) (land_use_ratio : List ℚ)
    (fn : Option String) : Except String (List ℚ) :=
  if var_to_HRU.getLast? = some land_use_ratio.length then
    if data.length = var_to_HRU.length then
      match fn with
      | none =>
        .ok (convertCells chunkCopy land_use_ratio (data.zip var_to_HRU)
          (List.replicate land_use_ratio.length 0) 0)
      | some f =>
        if f = "mean" then
          .ok (convertCells chunkMean land_use_ratio (data.zip var_to_HRU)
            (List.replicate land_use_ratio.length 0) 0)
        else .error "NotImplementedError"
    else .error "assert data.shape == var_to_HRU.shape"
  else .error "assert var_to_HRU[-1] == land_use_ratio.size"

/-- One reduction step of `to_grid_numba` (HRUs.py lines 536-549) on a
cell's slice of values and weights.  `np.max`/`np.min` of an empty slice
raise in numpy; that is modelled by `Except.error`.  `ℚ` has no NaN, so
`nansum` coincides with `sum` in this embedding. -/
def reduceFn (fn : String) (vals ws : List ℚ) : Except String ℚ :=
  if fn = "mean" then .ok (((vals.zip ws).map (fun p => p.1 * p.2)).sum / ws.sum)
  else if fn = "sum" then .ok vals.sum
  else if fn = "nansum" then .ok vals.sum
  else if fn = "max" then
    match vals with
    | [] => .error "zero-size array reduction"
    | v :: vs => .ok (vs.foldl max v)
  else if fn = "min" then
    match vals with
    | [] => .error "zero-size array reduction"
    | v :: vs => .ok (vs.foldl min v)
  else .error "NotImplementedError"

/-- The per-cell loop of `to_grid_numba` (HRUs.py lines 533-550): one output
entry per grid cell, reducing the cell's unit-range slice. -/
def to_grid_go (data ratio : List ℚ) (fn : String) : List ℕ → ℕ → Except String (List ℚ)
  | [], _ => .ok []
  | c :: cs, prev =>
    (reduceFn fn (sliceL data prev c) (sliceL ratio prev c)).bind
      (fun v => (to_grid_go data ratio fn cs c).map (fun rest => v :: rest))

/-- Embedding of `Data.to_grid_numba` (HRUs.py lines 516-551). -/
def to_grid_numba (data : List ℚ) (var_to_HRU : List ℕ) (land_use_ratio : List ℚ)
    (fn : String) : Except String (List ℚ) :=
  if var_to_HRU.getLast? = some land_use_ratio.length then
    to_grid_go data land_use_ratio fn var_to_HRU 0
  else .error "assert var_to_HRU[-1] == land_use_ratio.size"

/-- Python value passed to `Data.to_HRU` / `Data.to_grid`: a scalar `int`,
a scalar `float`, or an array (the `isinstance` checks of the source
dispatch on exactly this distinction). -/
inductive PyVal : Type where
  | int : ℤ → PyVal
  | float : ℚ → PyVal
  | arr : List ℚ → PyVal
deriving DecidableEq

/-- Embedding of the data path of `Data.to_HRU` (HRUs.py lines 487-514):
`isinstance(data, (float, int))` passes both scalar kinds through unchanged;
arrays go to `to_HRU_numba`.  (The `varname` attribute plumbing and the GPU
transfer are external collaborators and are not modelled.) -/
def to_HRU (data : PyVal) (var_to_HRU : List ℕ) (land_use_ratio : List ℚ)
    (fn : Option String) : Except String PyVal :=
  match data with
  | .int n => .ok (.int n)
  | .float q => .ok (.float q)
  | .arr xs =>
    match to_HRU_numba xs var_to_HRU land_use_ratio fn with
    | .ok ys => .ok (.arr ys)
    | .error e => .error e

/-- Embedding of the data path of `Data.to_grid` (HRUs.py lines 553-581):
`isinstance(HRU_data, float)` passes only scalar floats through; a scalar
int falls through to `self.to_grid_numba(HRU_data, ...)`, where numba's
typing of `data.dtype` fails on a Python int — modelled as an error. -/
def to_grid (HRU_data : PyVal) (var_to_HRU : List ℕ) (land_use_ratio : List ℚ)
    (fn : String) : Except String PyVal :=
  match HRU_data with
  | .float q => .ok (.float q)
  | .int _ => .error "to_grid_numba: Python int has no dtype (numba typing error)"
  | .arr xs =>
    match to_grid_numba xs var_to_HRU land_use_ratio fn with
    | .ok ys => .ok (.arr ys)
    | .error e => .error e

/-! ### HRU Builder (HRUs.py, HRUs.create_HRUs_numba) -/

/-- One HRU produced by the builder: its row in `land_use_array`,
`land_use_size`, `land_use_owner` and `HRU_to_grid`. -/
structure UnitRec : Type where
  land_use : ℤ
  size : ℕ
  owner : ℤ
  grid : ℕ
deriving DecidableEq

/-- Total of the `land_use_size` column. -/
def sizeSum (us : List UnitRec) : ℕ :=
  (us.map (fun u => u.size)).sum

/-- Embedding of `land_use_size[j-1] += 1` on the accumulator (whose head is
the most recently opened unit). -/
def bumpSize : List UnitRec → List UnitRec
  | [] => []
  | u :: us => { u with size := u.size + 1 } :: us

/-- The grouping walk shared by the two per-cell passes of
`create_HRUs_numba` (HRUs.py lines 241-262 and 268-289): walk the sorted,
filtered sub-cell items; when the key (farm id, resp. land-use code)
differs from the previous key open a new unit at index `j` via `mk` and
increment `j`, otherwise bump the size of unit `j - 1`; in both cases
record `(original sub-cell position, j - 1 after the update)` as the
sub-cell's `unmerged_HRU_indices` assignment.  Accumulators hold the units
(most recent first) and assignments in reverse. -/
def scanRunAux (mk : ℕ × ℤ × ℤ → UnitRec) (key : ℕ × ℤ × ℤ → ℤ) :
    List (ℕ × ℤ × ℤ) → ℤ → ℕ → List UnitRec → List (ℕ × ℕ) →
    List UnitRec × List (ℕ × ℕ)
  | [], _, _, accU, accA => (accU.reverse, accA.reverse)
  | it :: rest, prev, j, accU, accA =>
    if key it = prev then
      scanRunAux mk key rest prev j (bumpSize accU) ((it.1, j - 1) :: accA)
    else
      scanRunAux mk key rest (key it) (j + 1) (mk it :: accU) ((it.1, j) :: accA)

/-- Grouping walk started with empty accumulators at unit index `j`. -/
def scanRun (mk : ℕ × ℤ × ℤ → UnitRec) (key : ℕ × ℤ × ℤ → ℤ)
    (items : List (ℕ × ℤ × ℤ)) (prev : ℤ) (j : ℕ) :
    List UnitRec × List (ℕ × ℕ) :=
  scanRunAux mk key items prev j [] []

/-- Unit opened by the owned pass (HRUs.py lines 247-257): land use of the
opening sub-cell, size 1, owner = farm id, linked to compressed cell `ccc`. -/
def mkOwned (ccc : ℕ) (it : ℕ × ℤ × ℤ) : UnitRec :=
  ⟨it.2.2, 1, it.2.1, ccc⟩

/-- Unit opened by the unowned pass (HRUs.py lines 275-284):
`land_use_owner[j]` is never written there, so the owner keeps its `-1`
fill value. -/
def mkUnowned (ccc : ℕ) (it : ℕ × ℤ × ℤ) : UnitRec :=
  ⟨it.2.2, 1, -1, ccc⟩

/-- Strict-weak order used to embed `np.argsort(cell_farms)` (HRUs.py line
237): sort by farm id, ties broken by original sub-cell position to make
the order deterministic. -/
def farmOrder (a b : ℕ × ℤ × ℤ) : Prop :=
  a.2.1 < b.2.1 ∨ (a.2.1 = b.2.1 ∧ a.1 ≤ b.1)

instance farmOrderDec : DecidableRel farmOrder := fun a b => by
  unfold farmOrder
  infer_instance

/-- Order used to embed `np.argsort(cell_land_use_classes)` (HRUs.py line
264), ties again broken by original position. -/
def luOrder (a b : ℕ × ℤ × ℤ) : Prop :=
  a.2.2 < b.2.2 ∨ (a.2.2 = b.2.2 ∧ a.1 ≤ b.1)

instance luOrderDec : DecidableRel luOrder := fun a b => by
  unfold luOrder
  infer_instance

/-- Embedding of the sub-block extraction
`arr[y*s:(y+1)*s, x*s:(x+1)*s].ravel()` (HRUs.py lines 233-234). -/
def cellSlice (arr : List (List ℤ)) (s y x : ℕ) : List ℤ :=
  (((arr.drop (y * s)).take s).map (fun row => (row.drop (x * s)).take s)).flatten

/-- Fill value of `unmerged_HRU_indices` before assignment: the source uses
`np.full(..., -1, dtype=np.uint32)`, and -1 wraps to `2^32 - 1`. -/
def UNSET_UINT32 : ℕ := 4294967295

/-- Read slot `p` of a cell's assignment block from the per-cell assignment
list (each position is assigned exactly once across the two passes; unset
slots keep the uint32 fill value). -/
def findAssign (asg : List (ℕ × ℕ)) (p : ℕ) : ℕ :=
  ((asg.find? (fun q => q.1 == p)).map Prod.snd).getD UNSET_UINT32

/-- Result of processing one non-masked grid cell: the units it opened and
its `scaling²`-long block of `unmerged_HRU_indices`. -/
structure CellRes : Type where
  units : List UnitRec
  block : List ℕ
deriving DecidableEq

/-- Embedding of the body of the non-masked branch of `create_HRUs_numba`
(HRUs.py lines 233-291) for the cell at `(y, x)`, entered with `j` units
created so far and compressed cell counter `ccc`.

The land-use domain `assert` (line 235) becomes an error.  The source walks
the full argsorted item list and `continue`s over the other group's items
(lines 245-246, 273-274); since equal sort keys are contiguous, that walk
is the grouping walk over the sorted list with the other group filtered
out, which is how it is written here.  `np.argsort` leaves the order of
ties unspecified; the embedding fixes the stable (position-preserving) tie
order via `farmOrder` / `luOrder`.  The assignment slots
`sort_idx[i] + ccc * scaling²` (lines 261, 288) are returned as this cell's
relative block of `scaling²` slots. -/
def processCellCore (farms lus : List (List ℤ)) (s y x j ccc : ℕ) : CellRes :=
  let cf := cellSlice farms s y x
  let cl := cellSlice lus s y x
  let items := (cf.zip cl).enum
  let sortedByFarm := List.insertionSort farmOrder items
  let owned := sortedByFarm.filter (fun it => !decide (it.2.1 = -1))
  let resO := scanRun (mkOwned ccc) (fun it => it.2.1) owned (-1) j
  let sortedByLU := List.insertionSort luOrder items
  let unowned := sortedByLU.filter (fun it => decide (it.2.1 = -1))
  let resU := scanRun (mkUnowned ccc) (fun it => it.2.2) unowned (-1) (j + resO.1.length)
  ⟨resO.1 ++ resU.1, (List.range (s * s)).map (findAssign (resO.2 ++ resU.2))⟩

def processCell (farms lus : List (List ℤ)) (s y x j ccc : ℕ) : Except String CellRes :=
  if (cellSlice lus s y x).all (fun u => u == 0 || u == 1 || u == 4 || u == 5) then
    .ok (processCellCore farms lus s y x j ccc)
  else .error "assert cell_land_use_classes in (0, 1, 4, 5)"

/-- Row-major cell traversal `for y in range(ysize): for x in range(xsize)`
(HRUs.py lines 229-231), paired with the mask bit `mask[y, x]`. -/
def cellList (mask : List (List Bool)) : List (ℕ × ℕ × Bool) :=
  (List.range mask.length).flatMap
    (fun y => (List.range (mask.headD []).length).map
      (fun x => (y, x, (mask.getD y []).getD x false)))

/-- The main loop of `create_HRUs_numba` (HRUs.py lines 229-294) over the
row-major cell list, carrying the unit counter `j` and the compressed cell
counter.  Masked cells only record the running `j` into
`var_to_HRU_uncompressed`; non-masked cells process their sub-block, append
their units and assignment block, and record the post-cell `j` into both
`var_to_HRU` and `var_to_HRU_uncompressed` (lines 291-294). -/
def buildGo (farms lus : List (List ℤ)) (s : ℕ) :
    List (ℕ × ℕ × Bool) → ℕ → ℕ →
    Except String (List UnitRec × List ℕ × List ℕ × List ℕ)
  | [], _, _ => .ok ([], [], [], [])
  | (y, x, b) :: cells, j, ccc =>
    if b then
      match buildGo farms lus s cells j ccc with
      | .ok (us, vth, vthU, unm) => .ok (us, vth, j :: vthU, unm)
      | .error e => .error e
    else
      match processCell farms lus s y x j ccc with
      | .error e => .error e
      | .ok cr =>
        match buildGo farms lus s cells (j + cr.units.length) (ccc + 1) with
        | .ok (us, vth, vthU, unm) =>
          .ok (cr.units ++ us, (j + cr.units.length) :: vth,
            (j + cr.units.length) :: vthU, cr.block ++ unm)
        | .error e => .error e

/-- The tuple returned by `create_HRUs_numba` (HRUs.py line 304), with the
arrays already truncated to their final lengths (lines 296-300). -/
structure Built : Type where
  land_use_array : List ℤ
  land_use_ratio : List ℚ
  land_use_owner : List ℤ
  HRU_to_grid : List ℕ
  var_to_HRU : List ℕ
  var_to_HRU_uncompressed : List ℕ
  unmerged_HRU_indices : List ℕ
deriving DecidableEq

/-- Embedding of `HRUs.create_HRUs_numba` (HRUs.py lines 191-304).  The
size `assert`s (lines 211-212) and the final total-size `assert` (line 301)
become errors; `land_use_ratio = land_use_size / scaling**2` (line 303). -/
def create_HRUs_numba (farms lus : List (List ℤ)) (mask : List (List Bool))
    (s : ℕ) : Except String Built :=
  if farms.flatten.length = mask.flatten.length * (s * s) then
    if farms.flatten.length = lus.flatten.length then
      match buildGo farms lus s (cellList mask) 0 0 with
      | .error e => .error e
      | .ok (us, vth, vthU, unm) =>
        if sizeSum us = (mask.flatten.length - mask.flatten.countP id) * (s * s) then
          .ok {
            land_use_array := us.map (fun u => u.land_use)
            land_use_ratio := us.map (fun u => (u.size : ℚ) / ((s * s : ℕ) : ℚ))
            land_use_owner := us.map (fun u => u.owner)
            HRU_to_grid := us.map (fun u => u.grid)
            var_to_HRU := vth
            var_to_HRU_uncompressed := vthU
            unmerged_HRU_indices := unm }
        else .error "assert land_use_size.sum == n_nonmasked_cells * (scaling ** 2)"
    else .error "assert farms.size == land_use_classes.size"
  else .error "assert farms.size == mask.size * scaling * scaling"

/-- Shape precondition for the 2-D rasters: `s`-times the mask's resolution
in each axis, with the rectangular width taken from the mask's first row
(`ysize, xsize = mask.shape`). -/
def shapeOK (mask : List (List Bool)) (arr : List (List ℤ)) (s : ℕ) : Bool :=
  (arr.length == mask.length * s) &&
  arr.all (fun r => r.length == (mask.headD []).length * s) &&
  mask.all (fun r => r.length == (mask.headD []).length)

/-- Structural invariant relating the builder's outputs, one grid cell at a
time: the unit list and `unmerged_HRU_indices` decompose into per-cell
chunks aligned with `var_to_HRU`, each cell's chunk covering `s²` sub-cells,
with its block entries pointing into the cell's own unit range and its
units linked to the cell's compressed index. -/
def ChunkOK (s : ℕ) : ℕ → ℕ → List UnitRec → List ℕ → List ℕ → Prop
  | _, _, us, [], unm => us = [] ∧ unm = []
  | j, ccc, us, c :: vth, unm =>
    ∃ u1 us2 b1 unm2,
      us = u1 ++ us2 ∧ unm = b1 ++ unm2 ∧
      c = j + u1.length ∧ sizeSum u1 = s * s ∧ b1.length = s * s ∧
      (∀ v ∈ b1, j ≤ v ∧ v < j + u1.length) ∧
      (∀ u ∈ u1, u.grid = ccc) ∧
      ChunkOK s (j + u1.length) (ccc + 1) us2 vth unm2

/-! ### HRU Splitter (HRUs.py, Data.split_HRU_data / Data.split_HRU) -/

/-- In-place per-unit state of the splitter: the index structures built by
`create_HRUs_numba` that `Data.split_HRU` mutates.  (The long list of
physical per-unit arrays the source also extends is owned by the
surrounding simulation and is outside the embedded core.) -/
structure HRUState : Type where
  land_use_type : List ℤ
  land_use_ratio : List ℚ
  land_owners : List ℤ
  HRU_to_grid : List ℕ
  var_to_HRU : List ℕ
  unmerged_HRU_indices : List ℕ
deriving DecidableEq

/-- Embedding of `Data.split_HRU_data(a, i, att)` for a float array with
`att` given (HRUs.py lines 583-601): insert `a[i] * att` before position
`i`, then rescale the entry now at `i + 1` by `1 - att`.  With `att = none`
this is plain duplication (the `att or 1` path). -/
def split_HRU_data (a : List ℚ) (i : ℕ) (att : Option ℚ) : List ℚ :=
  match att with
  | none => np_insert a i (a.getD i 0)
  | some t =>
    let b := np_insert a i (a.getD i 0 * t)
    b.set (i + 1) ((1 - t) * b.getD (i + 1) 0)

/-- Embedding of `Data.split_HRU_data(a, i)` with `att = None` for an
integer-valued array: `np.insert(a, i, a[i])`. -/
def split_HRU_data_id {α : Type _} (a : List α) (d : α) (i : ℕ) : List α :=
  np_insert a i (a.getD i d)

/-- Embedding of the index-structure part of `Data.split_HRU(index)`
(HRUs.py lines 603-627).  Following the source exactly:
`subcell_indices = np.where(unmerged_HRU_indices == 0)[0]` (the literal `0`
is the source's, not `index`); `split_loc = int(size * 0.5)`; the
`assert split_loc > 0 and split_loc < size` becomes the `Option` guard;
`att` is renormalized to `split_loc / size`; entries `> index` are shifted
up, the tail of `subcell_indices` is shifted once more; `HRU_to_grid`,
`land_owners` and `land_use_type` are duplicated at `index`;
`var_to_HRU[HRU_to_grid[index]:] += 1`; `land_use_ratio` is split with
`att`.  (Lines 616-624 recompute farmer-owned indirection structures and
lines 628-674 extend the physical state arrays; both are external to the
core and not modelled.) -/
def split_HRU (st : HRUState) (index : ℕ) : Option HRUState :=
  let subcell_indices :=
    (List.range st.unmerged_HRU_indices.length).filter
      (fun k => st.unmerged_HRU_indices.getD k 0 == 0)
  let split_loc := subcell_indices.length / 2
  if 0 < split_loc ∧ split_loc < subcell_indices.length then
    let att : ℚ := (split_loc : ℚ) / (subcell_indices.length : ℚ)
    let unm1 := st.unmerged_HRU_indices.map (fun v => if index < v then v + 1 else v)
    let moved := subcell_indices.drop split_loc
    let unm2 := (List.range unm1.length).map
      (fun k => if k ∈ moved then unm1.getD k 0 + 1 else unm1.getD k 0)
    let HRU_to_grid2 := split_HRU_data_id st.HRU_to_grid 0 index
    let var_to_HRU2 := addOneFrom st.var_to_HRU (HRU_to_grid2.getD index 0)
    let land_owners2 := split_HRU_data_id st.land_owners 0 index
    let land_use_type2 := split_HRU_data_id st.land_use_type 0 index
    let land_use_ratio2 := split_HRU_data st.land_use_ratio index (some att)
    some ⟨land_use_type2, land_use_ratio2, land_owners2, HRU_to_grid2, var_to_HRU2, unm2⟩
  else none

/-! ### Concrete scenarios (inputs used by concrete theorems and witnesses) -/

/-- Mask of spec scenario 6: 2 by 2 grid, bottom-right cell excluded. -/
def maskC7 : List (List Bool) := [[false, false], [false, true]]

/-- Farms raster of spec scenario 6: all sub-cells unowned, scaling 2. -/
def farmsC7 : List (List ℤ) := [[-1, -1, -1, -1], [-1, -1, -1, -1], [-1, -1, -1, -1], [-1, -1, -1, -1]]

/-- Land-use raster of spec scenario 6: uniform code 0. -/
def lusC7 : List (List ℤ) := [[0, 0, 0, 0], [0, 0, 0, 0], [0, 0, 0, 0], [0, 0, 0, 0]]

/-- Builder output for spec scenario 6 (one unit per non-masked cell). -/
def builtC7 : Built :=
  { land_use_array := [0, 0, 0]
    land_use_ratio := [1, 1, 1]
    land_use_owner := [-1, -1, -1]
    HRU_to_grid := [0, 1, 2]
    var_to_HRU := [1, 2, 3]
    var_to_HRU_uncompressed := [1, 2, 3, 3]
    unmerged_HRU_indices := [0, 0, 0, 0, 1, 1, 1, 1, 2, 2, 2, 2] }

/-- Single-cell mask (one non-masked grid cell). -/
def mask1 : List (List Bool) := [[false]]

/-- Farms raster of spec scenario 7: one 2 by 2 cell, farm 1 owns the top
two sub-cells, the bottom two are unowned. -/
def farmsS7 : List (List ℤ) := [[1, 1], [-1, -1]]

/-- Land-use raster of spec scenario 7: codes 0 on the farm, 1 elsewhere. -/
def lusS7 : List (List ℤ) := [[0, 0], [1, 1]]

/-- Land-use raster with two different codes inside farm 1's sub-cells
(violates the uniformity the spec claims is checked). -/
def lusMixed : List (List ℤ) := [[0, 1], [1, 1]]

/-- Splitter state with the invariants of spec section 3: two grid cells at
scaling 2, unit 0 spanning cell 0, units 1 and 2 sharing cell 1. -/
def stC3 : HRUState :=
  { land_use_type := [0, 0, 0]
    land_use_ratio := [1, 1/2, 1/2]
    land_owners := [-1, -1, -1]
    HRU_to_grid := [0, 1, 1]
    var_to_HRU := [1, 3]
    unmerged_HRU_indices := [0, 0, 0, 0, 1, 1, 2, 2] }

/-- What the source's splitter produces for `unmerged_HRU_indices` on
`stC3` with `index = 1`. -/
def stC3unm : List ℕ := [0, 0, 1, 1, 1, 1, 3, 3]

/-- Splitter state of spec scenario 7's builder output (one cell, two
units of ratio one half). -/
def stC6 : HRUState :=
  { land_use_type := [0, 1]
    land_use_ratio := [1/2, 1/2]
    land_owners := [1, -1]
    HRU_to_grid := [0, 0]
    var_to_HRU := [2]
    unmerged_HRU_indices := [0, 0, 1, 1] }

/-- The state the splitter produces from `stC6` at index 0. -/
def stC6split : HRUState :=
  { land_use_type := [0, 0, 1]
    land_use_ratio := [1/4, 1/4, 1/2]
    land_owners := [1, 1, -1]
    HRU_to_grid := [0, 0, 0]
    var_to_HRU := [3]
    unmerged_HRU_indices := [0, 1, 2, 2] }

/-- Decidable equality for `Except`, used to settle concrete runs of the
embedded fallible functions by `decide`. -/
instance exceptDecEq {ε α : Type _} [DecidableEq ε] [DecidableEq α] :
    DecidableEq (Except ε α) := fun a b =>
  match a, b with
  | .ok x, .ok y =>
    if h : x = y then .isTrue (by subst h; rfl)
    else .isFalse (by intro hc; cases hc; exact h rfl)
  | .error x, .error y =>
    if h : x = y then .isTrue (by subst h; rfl)
    else .isFalse (by intro hc; cases hc; exact h rfl)
  | .ok _, .error _ => .isFalse (by intro hc; cases hc)
  | .error _, .ok _ => .isFalse (by intro hc; cases hc)

/-! ## Theorems -/

/-! ### C1: compress after decompress is the identity -/

/-- C1: for every compressed 1-D array `x` whose length matches the mask's
non-masked count (equivalently: whenever `decompress` succeeds, which is
exactly that condition) and every fill value, compressing the decompressed
array gives back `x` element-wise. -/
theorem compress_decompress_roundtrip {α : Type _} (mask_flat : List Bool)
    (x : List α) (fill : α) (y : List α)
    (h : decompress mask_flat x fill = some y) :
    compress mask_flat y = x := by
  induction mask_flat generalizing x y with
  | nil =>
    cases x with
    | nil =>
      simp only [decompress, Option.some.injEq] at h
      subst h
      rfl
    | cons a xs => simp [decompress] at h
  | cons b m ih =>
    cases b with
    | true =>
      cases he : decompress m x fill with
      | none => rw [decompress, he] at h; exact absurd h (by simp)
      | some r =>
        rw [decompress, he] at h
        simp only [Option.some.injEq] at h
        subst h
        simpa [compress, List.zip, List.zipWith] using ih x r he
    | false =>
      cases x with
      | nil => simp [decompress] at h
      | cons a xs =>
        cases he : decompress m xs fill with
        | none => rw [decompress, he] at h; exact absurd h (by simp)
        | some r =>
          rw [decompress, he] at h
          simp only [Option.some.injEq] at h
          subst h
          simpa [compress, List.zip, List.zipWith] using ih xs r he

/-- Witness for C1 at a concrete mask, array and fill value. -/
theorem compress_decompress_roundtrip_witness :
    decompress [false, true, false] [5, 7] (0 : ℤ) = some [5, 0, 7] ∧
    compress [false, true, false] ([5, 0, 7] : List ℤ) = [5, 7] :=
  ⟨by decide, compress_decompress_roundtrip [false, true, false] [5, 7] 0 [5, 0, 7] (by decide)⟩

/-! ### C7: concrete builder scenario with one excluded cell -/

/-- C7: for mask `[[0,0],[0,1]]`, scaling 2, all sub-cells unowned with
uniform land-use code 0, the builder produces exactly 3 units, each with
`land_use_ratio == 1.0`, and `var_to_HRU == [1, 2, 3]`. -/
theorem create_HRUs_scenario_one_excluded :
    create_HRUs_numba farmsC7 lusC7 maskC7 2 = .ok builtC7 ∧
    builtC7.land_use_ratio.length = 3 ∧
    (∀ r ∈ builtC7.land_use_ratio, r = 1) ∧
    builtC7.var_to_HRU = [1, 2, 3] := by
  with_unfolding_all decide

/-! ### C5: mixed land use within one farm is not rejected -/

/-- C5 counterexample: on a cell where farm 1's sub-cells carry the two
land-use codes 0 and 1, `create_HRUs_numba` returns index structures
normally instead of failing with a consistency error. -/
theorem create_HRUs_mixed_landuse_no_error :
    (create_HRUs_numba farmsS7 lusMixed mask1 2).isOk = true := by
  with_unfolding_all decide

/-- C5 amended: the builder performs no land-use uniformity check inside a
farm; it opens one unit per farm recording the land-use code of the farm's
first sub-cell in sort order and returns normally.  Concretely, with farm
1's sub-cells carrying codes 0 and 1 it returns two units with land-use
codes `[0, 1]` and ratios one half each. -/
theorem create_HRUs_mixed_landuse_result :
    create_HRUs_numba farmsS7 lusMixed mask1 2 =
      .ok ⟨[0, 1], [1/2, 1/2], [1, -1], [0, 0], [2], [2], [0, 0, 1, 1]⟩ := by
  with_unfolding_all decide

/-! ### C8: scalar pass-through of the converters -/

/-- C8 counterexample: a scalar Python `int` handed to `to_grid` is not
passed through; it falls into the array path, which fails (numba cannot
type `data.dtype` for an `int`). -/
theorem to_grid_int_scalar_errors :
    to_grid (.int 5) [1] [1] "mean" =
      .error "to_grid_numba: Python int has no dtype (numba typing error)" := rfl

/-- C8 amended: `to_HRU` passes scalar `int`s and `float`s through
unchanged for every mode, and `to_grid` passes scalar `float`s through
unchanged for every reduction; only a scalar `int` into `to_grid` is not
passed through (its `isinstance` check tests `float` alone). -/
theorem scalar_passthrough (n : ℤ) (q : ℚ) (vth : List ℕ) (ratio : List ℚ)
    (fn : Option String) (fng : String) :
    to_HRU (.int n) vth ratio fn = .ok (.int n) ∧
    to_HRU (.float q) vth ratio fn = .ok (.float q) ∧
    to_grid (.float q) vth ratio fng = .ok (.float q) :=
  ⟨rfl, rfl, rfl⟩

/-! ### C3: the splitter's back-mapping update is not onto for index 1 -/

/-- C3 failing input: on the two-cell state `stC3` (which satisfies every
section-3 invariant) with `index = 1`, the splitter's update of
`unmerged_HRU_indices` moves sub-cells of unit 0 (the source hard-codes
`== 0`) instead of unit 1, so the relabeled unit set is not covered: no
sub-cell maps to the newly inserted unit `index + 1 = 2`. -/
theorem split_HRU_unmerged_not_onto :
    (split_HRU stC3 1).map (fun st => st.unmerged_HRU_indices) = some stC3unm ∧
    (∀ v ∈ stC3unm, v < 4) ∧ 2 ∉ stC3unm := by
  with_unfolding_all decide

/-! ### C2: the mean-mean round trip fails; sum aggregation inverts -/

theorem sliceL_length {α : Type _} (l : List α) (a b : ℕ) :
    (sliceL l a b).length = min (b - a) (l.length - a) := by
  simp [sliceL]

theorem chainLE_le_getLastD : ∀ (l : List ℕ) (p : ℕ), chainLE p l = true → p ≤ l.getLastD p
  | [], _, _ => le_refl _
  | c :: cs, p, h => by
    simp only [chainLE, Bool.and_eq_true, decide_eq_true_eq] at h
    calc p ≤ c := h.1
      _ ≤ (c :: cs).getLastD p := by
        rw [List.getLastD_cons]
        exact chainLE_le_getLastD cs c h.2

theorem chainLE_mem_le_getLastD : ∀ (l : List ℕ) (p : ℕ), chainLE p l = true →
    ∀ c ∈ l, c ≤ l.getLastD p
  | [], _, _ => by simp
  | c :: cs, p, h => by
    simp only [chainLE, Bool.and_eq_true, decide_eq_true_eq] at h
    intro c' hc'
    rw [List.getLastD_cons]
    rcases List.mem_cons.mp hc' with rfl | hmem
    · exact chainLE_le_getLastD cs c' h.2
    · exact chainLE_mem_le_getLastD cs c h.2 c' hmem

theorem chainLT_chainLE : ∀ (l : List ℕ) (p : ℕ), chainLT p l = true → chainLE p l = true
  | [], _, _ => rfl
  | c :: cs, p, h => by
    simp only [chainLT, Bool.and_eq_true, decide_eq_true_eq] at h
    simp only [chainLE, Bool.and_eq_true, decide_eq_true_eq]
    exact ⟨le_of_lt h.1, chainLT_chainLE cs c h.2⟩

/-- Writing chunks whose lengths match the written slices tiles the output
array: `convertCells` equals the untouched prefix, the chunk concatenation,
and the untouched suffix. -/
theorem convertCells_eq_chunksOf (chunk : ℚ → List ℚ → List ℚ)
    (hch : ∀ d cs, (chunk d cs).length = cs.length) (ratio : List ℚ) :
    ∀ (pairs : List (ℚ × ℕ)) (out : List ℚ) (prev : ℕ),
      chainLE prev (pairs.map Prod.snd) = true →
      (∀ c ∈ pairs.map Prod.snd, c ≤ out.length) →
      prev ≤ out.length → out.length = ratio.length →
      convertCells chunk ratio pairs out prev =
        out.take prev ++ chunksOf chunk ratio pairs prev ++
          out.drop ((pairs.map Prod.snd).getLastD prev)
  | [], out, prev, _, _, _, _ => by
    simp [convertCells, chunksOf, List.take_append_drop]
  | (d, c) :: rest, out, prev, hchain, hbound, hprev, hout => by
    simp only [List.map_cons, chainLE, Bool.and_eq_true, decide_eq_true_eq] at hchain
    obtain ⟨hpc, hchain'⟩ := hchain
    have hc : c ≤ out.length := hbound c (by simp)
    have hchlen : (chunk d (sliceL ratio prev c)).length = c - prev := by
      rw [hch, sliceL_length]
      omega
    have houtlen : (setSlice out prev c (chunk d (sliceL ratio prev c))).length = out.length := by
      simp only [setSlice, List.length_append, List.length_take, List.length_drop, hchlen]
      omega
    have hpreflen : (out.take prev ++ chunk d (sliceL ratio prev c)).length = c := by
      simp only [List.length_append, List.length_take, hchlen]
      omega
    have hsplit : setSlice out prev c (chunk d (sliceL ratio prev c)) =
        (out.take prev ++ chunk d (sliceL ratio prev c)) ++ out.drop c := by
      simp [setSlice]
    have ih := convertCells_eq_chunksOf chunk hch ratio rest
      (setSlice out prev c (chunk d (sliceL ratio prev c))) c hchain'
      (fun c' hc' => by rw [houtlen]; exact hbound c' (by simp [hc']))
      (by rw [houtlen]; exact hc) (by rw [houtlen]; exact hout)
    rw [convertCells, ih]
    have htake : (setSlice out prev c (chunk d (sliceL ratio prev c))).take c =
        out.take prev ++ chunk d (sliceL ratio prev c) := by
      rw [hsplit]
      exact List.take_left' hpreflen
    have hlastge : c ≤ (rest.map Prod.snd).getLastD c := chainLE_le_getLastD _ _ hchain'
    have hdrop : (setSlice out prev c (chunk d (sliceL ratio prev c))).drop
        ((rest.map Prod.snd).getLastD c) = out.drop ((rest.map Prod.snd).getLastD c) := by
      rw [hsplit]
      have h1 : ∀ m, (((out.take prev ++ chunk d (sliceL ratio prev c)) ++ out.drop c).drop c).drop m
          = (out.drop c).drop m := by
        intro m
        rw [List.drop_left' hpreflen]
      have h2 := h1 ((rest.map Prod.snd).getLastD c - c)
      rw [List.drop_drop, List.drop_drop] at h2
      have e1 : c + ((rest.map Prod.snd).getLastD c - c) = (rest.map Prod.snd).getLastD c := by
        omega
      rw [e1] at h2
      exact h2
    have hmap : ((((d, c) :: rest).map Prod.snd).getLastD prev) = (rest.map Prod.snd).getLastD c := by
      rw [List.map_cons, List.getLastD_cons]
    rw [htake, hdrop, chunksOf, hmap]
    simp [List.append_assoc]

/-- On inputs passing its `assert`s with monotone boundaries, the mean-mode
`to_HRU_numba` returns exactly the concatenation of the per-cell
area-weighted chunks. -/
theorem to_HRU_numba_mean_eq (g : List ℚ) (vth : List ℕ) (ratio : List ℚ)
    (hmono : chainLE 0 vth = true)
    (hlast : vth.getLast? = some ratio.length)
    (hlen : g.length = vth.length) :
    to_HRU_numba g vth ratio (some "mean") =
      .ok (chunksOf chunkMean ratio (g.zip vth) 0) := by
  have hsnd : (g.zip vth).map Prod.snd = vth := List.map_snd_zip g vth (le_of_eq hlen.symm)
  have hlastD : vth.getLastD 0 = ratio.length := by
    rw [List.getLastD_eq_getLast?, hlast]
    rfl
  have hbound : ∀ c ∈ vth, c ≤ ratio.length := by
    intro c hc
    have := chainLE_mem_le_getLastD vth 0 hmono c hc
    rwa [hlastD] at this
  rw [to_HRU_numba, if_pos hlast, if_pos hlen]
  rw [if_pos rfl]
  congr 1
  rw [convertCells_eq_chunksOf chunkMean (fun d cs => by simp [chunkMean]) ratio (g.zip vth)
    (List.replicate ratio.length 0) 0 (by rw [hsnd]; exact hmono)
    (by rw [hsnd]; intro c hc; rw [List.length_replicate]; exact hbound c hc)
    (by simp) (by simp)]
  rw [hsnd, hlastD]
  simp [List.drop_eq_nil_of_le]

/-- On inputs passing its `assert`s with monotone boundaries, the copy-mode
`to_HRU_numba` returns exactly the concatenation of the per-cell broadcast
chunks. -/
theorem to_HRU_numba_copy_eq (g : List ℚ) (vth : List ℕ) (ratio : List ℚ)
    (hmono : chainLE 0 vth = true)
    (hlast : vth.getLast? = some ratio.length)
    (hlen : g.length = vth.length) :
    to_HRU_numba g vth ratio none =
      .ok (chunksOf chunkCopy ratio (g.zip vth) 0) := by
  have hsnd : (g.zip vth).map Prod.snd = vth := List.map_snd_zip g vth (le_of_eq hlen.symm)
  have hlastD : vth.getLastD 0 = ratio.length := by
    rw [List.getLastD_eq_getLast?, hlast]
    rfl
  have hbound : ∀ c ∈ vth, c ≤ ratio.length := by
    intro c hc
    have := chainLE_mem_le_getLastD vth 0 hmono c hc
    rwa [hlastD] at this
  rw [to_HRU_numba, if_pos hlast, if_pos hlen]
  congr 1
  rw [convertCells_eq_chunksOf chunkCopy (fun d cs => by simp [chunkCopy]) ratio (g.zip vth)
    (List.replicate ratio.length 0) 0 (by rw [hsnd]; exact hmono)
    (by rw [hsnd]; intro c hc; rw [List.length_replicate]; exact hbound c hc)
    (by simp) (by simp)]
  rw [hsnd, hlastD]
  simp [List.drop_eq_nil_of_le]

theorem except_bind_ok {ε α β : Type _} (a : α) (f : α → Except ε β) :
    (Except.ok a).bind f = f a := rfl

theorem except_map_ok {ε α β : Type _} (a : α) (f : α → β) :
    (Except.ok a : Except ε α).map f = .ok (f a) := rfl

theorem reduceFn_sum (vals ws : List ℚ) : reduceFn "sum" vals ws = .ok vals.sum := by
  simp [reduceFn]

/-- Sum-aggregating the concatenated area-weighted chunks recovers the
original per-cell values. -/
theorem to_grid_go_sum_of_mean_chunks (ratio : List ℚ) :
    ∀ (pairs : List (ℚ × ℕ)) (P : List ℚ) (prev : ℕ),
      P.length = prev →
      chainLE prev (pairs.map Prod.snd) = true →
      (∀ c ∈ pairs.map Prod.snd, c ≤ ratio.length) →
      rangesSumNZ ratio prev (pairs.map Prod.snd) = true →
      to_grid_go (P ++ chunksOf chunkMean ratio pairs prev) ratio "sum"
        (pairs.map Prod.snd) prev = .ok (pairs.map Prod.fst)
  | [], P, prev, _, _, _, _ => by simp [to_grid_go]
  | (d, c) :: rest, P, prev, hP, hchain, hbound, hnz => by
    subst hP
    simp only [List.map_cons, chainLE, Bool.and_eq_true, decide_eq_true_eq] at hchain
    obtain ⟨hpc, hchain'⟩ := hchain
    simp only [List.map_cons, rangesSumNZ, Bool.and_eq_true, decide_eq_true_eq] at hnz
    obtain ⟨hS, hnz'⟩ := hnz
    have hc : c ≤ ratio.length := hbound c (by simp)
    have hchlen : (chunkMean d (sliceL ratio P.length c)).length = c - P.length := by
      simp only [chunkMean, List.length_map, sliceL_length]
      omega
    have hassoc : P ++ chunksOf chunkMean ratio ((d, c) :: rest) P.length =
        (P ++ chunkMean d (sliceL ratio P.length c)) ++ chunksOf chunkMean ratio rest c := by
      rw [chunksOf]
      simp [List.append_assoc]
    have hvals : sliceL (P ++ chunksOf chunkMean ratio ((d, c) :: rest) P.length) P.length c =
        chunkMean d (sliceL ratio P.length c) := by
      rw [hassoc, sliceL, List.append_assoc, List.drop_left, List.take_left' hchlen]
    have hsum : (chunkMean d (sliceL ratio P.length c)).sum = d := by
      have h1 : (chunkMean d (sliceL ratio P.length c)).sum
          = d / (sliceL ratio P.length c).sum * ((sliceL ratio P.length c).map id).sum := by
        rw [chunkMean]
        exact List.sum_map_mul_left (sliceL ratio P.length c) id (d / (sliceL ratio P.length c).sum)
      rw [h1, List.map_id]
      exact div_mul_cancel₀ d hS
    have hred : reduceFn "sum"
        (sliceL (P ++ chunksOf chunkMean ratio ((d, c) :: rest) P.length) P.length c)
        (sliceL ratio P.length c) = .ok d := by
      rw [hvals, reduceFn_sum, hsum]
    have ih := to_grid_go_sum_of_mean_chunks ratio rest
      (P ++ chunkMean d (sliceL ratio P.length c)) c
      (by rw [List.length_append, hchlen]; omega) hchain'
      (fun c' hc' => hbound c' (by simp [hc'])) hnz'
    simp only [List.map_cons]
    rw [to_grid_go, hred, except_bind_ok, hassoc, ih, except_map_ok]

/-- C2 amended: for index structures with monotone `var_to_HRU` ending at
the unit count and a non-zero ratio sum in every cell's range (as the
builder produces, with every cell's unit range non-empty), area-weighted
disaggregation followed by `sum` aggregation recovers the compressed grid
array exactly; `sum`, not `mean`, is the inverse reduction. -/
theorem to_HRU_mean_to_grid_sum_roundtrip (g : List ℚ) (vth : List ℕ) (ratio : List ℚ)
    (hmono : chainLE 0 vth = true)
    (hlast : vth.getLast? = some ratio.length)
    (hlen : g.length = vth.length)
    (hnz : rangesSumNZ ratio 0 vth = true) :
    (to_HRU_numba g vth ratio (some "mean")).bind
      (fun h => to_grid_numba h vth ratio "sum") = .ok g := by
  rw [to_HRU_numba_mean_eq g vth ratio hmono hlast hlen]
  show to_grid_numba (chunksOf chunkMean ratio (g.zip vth) 0) vth ratio "sum" = .ok g
  rw [to_grid_numba, if_pos hlast]
  have hsnd : (g.zip vth).map Prod.snd = vth := List.map_snd_zip g vth (le_of_eq hlen.symm)
  have hlastD : vth.getLastD 0 = ratio.length := by
    rw [List.getLastD_eq_getLast?, hlast]
    rfl
  have hbound : ∀ c ∈ vth, c ≤ ratio.length := by
    intro c hc
    have := chainLE_mem_le_getLastD vth 0 hmono c hc
    rwa [hlastD] at this
  have h := to_grid_go_sum_of_mean_chunks ratio (g.zip vth) [] 0 rfl
    (by rw [hsnd]; exact hmono) (by rw [hsnd]; exact hbound) (by rw [hsnd]; exact hnz)
  rw [List.nil_append, hsnd] at h
  rw [h, List.map_fst_zip g vth (le_of_eq hlen)]

/-- Witness for the amended C2 on the builder output of spec scenario 7. -/
theorem to_HRU_mean_to_grid_sum_roundtrip_witness :
    chainLE 0 [2] = true ∧ ([2] : List ℕ).getLast? = some ([(1:ℚ)/2, 1/2] : List ℚ).length ∧
    ([(5:ℚ)] : List ℚ).length = ([2] : List ℕ).length ∧
    rangesSumNZ [(1:ℚ)/2, 1/2] 0 [2] = true ∧
    (to_HRU_numba [5] [2] [1/2, 1/2] (some "mean")).bind
      (fun h => to_grid_numba h [2] [1/2, 1/2] "sum") = .ok [5] :=
  ⟨by decide, by decide, by decide, by with_unfolding_all decide,
    to_HRU_mean_to_grid_sum_roundtrip [5] [2] [1/2, 1/2] (by decide) (by decide) (by decide)
      (by with_unfolding_all decide)⟩

theorem foldl_max_const (d : ℚ) : ∀ l : List ℚ, (∀ x ∈ l, x = d) → l.foldl max d = d
  | [], _ => rfl
  | x :: xs, h => by
    have hx : x = d := h x (by simp)
    rw [List.foldl, hx, max_self]
    exact foldl_max_const d xs (fun y hy => h y (by simp [hy]))

theorem foldl_min_const (d : ℚ) : ∀ l : List ℚ, (∀ x ∈ l, x = d) → l.foldl min d = d
  | [], _ => rfl
  | x :: xs, h => by
    have hx : x = d := h x (by simp)
    rw [List.foldl, hx, min_self]
    exact foldl_min_const d xs (fun y hy => h y (by simp [hy]))

/-- Reducing a non-empty constant slice with `max` or `min` returns the
constant. -/
theorem reduceFn_const (fn : String) (hfn : fn = "max" ∨ fn = "min")
    (vals ws : List ℚ) (d : ℚ) (hne : vals ≠ []) (hall : ∀ x ∈ vals, x = d) :
    reduceFn fn vals ws = .ok d := by
  cases vals with
  | nil => exact absurd rfl hne
  | cons v vs =>
    have hv : v = d := hall v (by simp)
    have htail : ∀ x ∈ vs, x = d := fun x hx => hall x (by simp [hx])
    rcases hfn with rfl | rfl
    · have hstep : reduceFn "max" (v :: vs) ws = .ok (vs.foldl max v) := by
        simp [reduceFn]
      rw [hstep, hv, foldl_max_const d vs htail]
    · have hstep : reduceFn "min" (v :: vs) ws = .ok (vs.foldl min v) := by
        simp [reduceFn]
      rw [hstep, hv, foldl_min_const d vs htail]

/-- Aggregating the concatenated copy-mode chunks with `max` or `min`
recovers the original per-cell values when every range is non-empty. -/
theorem to_grid_go_of_copy_chunks (ratio : List ℚ) (fn : String)
    (hfn : fn = "max" ∨ fn = "min") :
    ∀ (pairs : List (ℚ × ℕ)) (P : List ℚ) (prev : ℕ),
      P.length = prev →
      chainLT prev (pairs.map Prod.snd) = true →
      (∀ c ∈ pairs.map Prod.snd, c ≤ ratio.length) →
      to_grid_go (P ++ chunksOf chunkCopy ratio pairs prev) ratio fn
        (pairs.map Prod.snd) prev = .ok (pairs.map Prod.fst)
  | [], P, prev, _, _, _ => by simp [to_grid_go]
  | (d, c) :: rest, P, prev, hP, hchain, hbound => by
    subst hP
    simp only [List.map_cons, chainLT, Bool.and_eq_true, decide_eq_true_eq] at hchain
    obtain ⟨hpc, hchain'⟩ := hchain
    have hc : c ≤ ratio.length := hbound c (by simp)
    have hchlen : (chunkCopy d (sliceL ratio P.length c)).length = c - P.length := by
      simp only [chunkCopy, List.length_map, sliceL_length]
      omega
    have hassoc : P ++ chunksOf chunkCopy ratio ((d, c) :: rest) P.length =
        (P ++ chunkCopy d (sliceL ratio P.length c)) ++ chunksOf chunkCopy ratio rest c := by
      rw [chunksOf]
      simp [List.append_assoc]
    have hvals : sliceL (P ++ chunksOf chunkCopy ratio ((d, c) :: rest) P.length) P.length c =
        chunkCopy d (sliceL ratio P.length c) := by
      rw [hassoc, sliceL, List.append_assoc, List.drop_left, List.take_left' hchlen]
    have hne : chunkCopy d (sliceL ratio P.length c) ≠ [] := by
      intro hnil
      have := congrArg List.length hnil
      rw [hchlen] at this
      simp at this
      omega
    have hall : ∀ x ∈ chunkCopy d (sliceL ratio P.length c), x = d := by
      intro x hx
      rcases List.mem_map.mp hx with ⟨w, _, rfl⟩
      rfl
    have hred : reduceFn fn
        (sliceL (P ++ chunksOf chunkCopy ratio ((d, c) :: rest) P.length) P.length c)
        (sliceL ratio P.length c) = .ok d := by
      rw [hvals]
      exact reduceFn_const fn hfn _ _ d hne hall
    have ih := to_grid_go_of_copy_chunks ratio fn hfn rest
      (P ++ chunkCopy d (sliceL ratio P.length c)) c
      (by rw [List.length_append, hchlen]; omega) hchain'
      (fun c' hc' => hbound c' (by simp [hc']))
    simp only [List.map_cons]
    rw [to_grid_go, hred, except_bind_ok, hassoc, ih, except_map_ok]

/-- C10: for index structures with strictly increasing `var_to_HRU` ending
at the unit count (builder output with every cell's unit range non-empty),
copy-mode disaggregation followed by `max` aggregation is the identity, and
likewise with `min`. -/
theorem to_HRU_copy_to_grid_max_min_roundtrip (g : List ℚ) (vth : List ℕ) (ratio : List ℚ)
    (hmono : chainLT 0 vth = true)
    (hlast : vth.getLast? = some ratio.length)
    (hlen : g.length = vth.length) :
    (to_HRU_numba g vth ratio none).bind
      (fun h => to_grid_numba h vth ratio "max") = .ok g ∧
    (to_HRU_numba g vth ratio none).bind
      (fun h => to_grid_numba h vth ratio "min") = .ok g := by
  have hle : chainLE 0 vth = true := chainLT_chainLE vth 0 hmono
  have hsnd : (g.zip vth).map Prod.snd = vth := List.map_snd_zip g vth (le_of_eq hlen.symm)
  have hlastD : vth.getLastD 0 = ratio.length := by
    rw [List.getLastD_eq_getLast?, hlast]
    rfl
  have hbound : ∀ c ∈ vth, c ≤ ratio.length := by
    intro c hc
    have := chainLE_mem_le_getLastD vth 0 hle c hc
    rwa [hlastD] at this
  have hfst : (g.zip vth).map Prod.fst = g := List.map_fst_zip g vth (le_of_eq hlen)
  constructor
  · rw [to_HRU_numba_copy_eq g vth ratio hle hlast hlen]
    show to_grid_numba (chunksOf chunkCopy ratio (g.zip vth) 0) vth ratio "max" = .ok g
    rw [to_grid_numba, if_pos hlast]
    have h := to_grid_go_of_copy_chunks ratio "max" (Or.inl rfl) (g.zip vth) [] 0 rfl
      (by rw [hsnd]; exact hmono) (by rw [hsnd]; exact hbound)
    rw [List.nil_append, hsnd] at h
    rw [h, hfst]
  · rw [to_HRU_numba_copy_eq g vth ratio hle hlast hlen]
    show to_grid_numba (chunksOf chunkCopy ratio (g.zip vth) 0) vth ratio "min" = .ok g
    rw [to_grid_numba, if_pos hlast]
    have h := to_grid_go_of_copy_chunks ratio "min" (Or.inr rfl) (g.zip vth) [] 0 rfl
      (by rw [hsnd]; exact hmono) (by rw [hsnd]; exact hbound)
    rw [List.nil_append, hsnd] at h
    rw [h, hfst]

/-- Witness for C10 on the builder output of spec scenario 7. -/
theorem to_HRU_copy_to_grid_max_min_roundtrip_witness :
    chainLT 0 [2] = true ∧ ([2] : List ℕ).getLast? = some ([(1:ℚ)/2, 1/2] : List ℚ).length ∧
    ([(7:ℚ)] : List ℚ).length = ([2] : List ℕ).length ∧
    ((to_HRU_numba [7] [2] [1/2, 1/2] none).bind
      (fun h => to_grid_numba h [2] [1/2, 1/2] "max") = .ok [7] ∧
    (to_HRU_numba [7] [2] [1/2, 1/2] none).bind
      (fun h => to_grid_numba h [2] [1/2, 1/2] "min") = .ok [7]) :=
  ⟨by decide, by decide, by decide,
    to_HRU_copy_to_grid_max_min_roundtrip [7] [2] [1/2, 1/2] (by decide) (by decide) (by decide)⟩

/-- C2 counterexample: for the builder output of spec scenario 7 (one grid
cell split into two units of ratio one half), area-weighted disaggregation
followed by ratio-weighted mean aggregation maps `[1]` to `[1/2]`, not back
to `[1]`. -/
theorem to_HRU_mean_to_grid_mean_not_roundtrip :
    (create_HRUs_numba farmsS7 lusS7 mask1 2).map
      (fun b => (b.var_to_HRU, b.land_use_ratio)) = .ok ([2], [1/2, 1/2]) ∧
    (to_HRU_numba [1] [2] [1/2, 1/2] (some "mean")).bind
      (fun h => to_grid_numba h [2] [1/2, 1/2] "mean") = .ok [1/2] ∧
    ([(1 : ℚ)/2] ≠ [(1 : ℚ)]) := by
  with_unfolding_all decide

/-! ### Builder structure lemmas (toward C4 and C9) -/

theorem sizeSum_append (a b : List UnitRec) : sizeSum (a ++ b) = sizeSum a + sizeSum b := by
  simp [sizeSum]

theorem sizeSum_reverse (l : List UnitRec) : sizeSum l.reverse = sizeSum l := by
  simp [sizeSum, List.map_reverse, List.sum_reverse]

theorem sizeSum_bumpSize_cons (u : UnitRec) (us : List UnitRec) :
    sizeSum (bumpSize (u :: us)) = sizeSum (u :: us) + 1 := by
  simp [bumpSize, sizeSum]
  omega

theorem bumpSize_length (l : List UnitRec) : (bumpSize l).length = l.length := by
  cases l <;> simp [bumpSize]

theorem bumpSize_grid (l : List UnitRec) (c : ℕ) (h : ∀ u ∈ l, u.grid = c) :
    ∀ u ∈ bumpSize l, u.grid = c := by
  cases l with
  | nil => simp [bumpSize]
  | cons u us =>
    intro v hv
    rcases List.mem_cons.mp hv with rfl | hmem
    · exact h u (by simp)
    · exact h v (by simp [hmem])

theorem scanRunAux_sizeSum (mk : ℕ × ℤ × ℤ → UnitRec) (key : ℕ × ℤ × ℤ → ℤ)
    (hmk : ∀ it, (mk it).size = 1) :
    ∀ (items : List (ℕ × ℤ × ℤ)) (prev : ℤ) (j : ℕ) (accU : List UnitRec)
      (accA : List (ℕ × ℕ)),
      (accU = [] → ∀ it ∈ items, key it ≠ prev) →
      sizeSum (scanRunAux mk key items prev j accU accA).1 = sizeSum accU + items.length
  | [], prev, j, accU, accA, _ => by
    simp [scanRunAux, sizeSum_reverse]
  | it :: rest, prev, j, accU, accA, h => by
    by_cases hk : key it = prev
    · cases accU with
      | nil => exact absurd hk (h rfl it (by simp))
      | cons u us =>
        rw [scanRunAux, if_pos hk]
        rw [scanRunAux_sizeSum mk key hmk rest prev j (bumpSize (u :: us)) _
          (fun hc => absurd hc (by simp [bumpSize]))]
        rw [sizeSum_bumpSize_cons]
        simp only [List.length_cons]
        omega
    · rw [scanRunAux, if_neg hk]
      rw [scanRunAux_sizeSum mk key hmk rest (key it) (j + 1) (mk it :: accU) _
        (fun hc => absurd hc (by simp))]
      simp only [sizeSum, List.map_cons, List.sum_cons, hmk it, List.length_cons]
      simp only [sizeSum] at *
      omega

theorem scanRunAux_assign_bounds (mk : ℕ × ℤ × ℤ → UnitRec) (key : ℕ × ℤ × ℤ → ℤ)
    (j0 : ℕ) :
    ∀ (items : List (ℕ × ℤ × ℤ)) (prev : ℤ) (j : ℕ) (accU : List UnitRec)
      (accA : List (ℕ × ℕ)),
      j = j0 + accU.length →
      (accU = [] → ∀ it ∈ items, key it ≠ prev) →
      (∀ pa ∈ accA, j0 ≤ pa.2 ∧ pa.2 < j) →
      ∀ pa ∈ (scanRunAux mk key items prev j accU accA).2,
        j0 ≤ pa.2 ∧ pa.2 < j0 + (scanRunAux mk key items prev j accU accA).1.length
  | [], prev, j, accU, accA, hj, _, hacc => by
    simp only [scanRunAux, List.length_reverse]
    intro pa hpa
    have := hacc pa (List.mem_reverse.mp hpa)
    omega
  | it :: rest, prev, j, accU, accA, hj, h, hacc => by
    by_cases hk : key it = prev
    · cases accU with
      | nil => exact absurd hk (h rfl it (by simp))
      | cons u us =>
        rw [scanRunAux, if_pos hk]
        refine scanRunAux_assign_bounds mk key j0 rest prev j (bumpSize (u :: us))
          ((it.1, j - 1) :: accA) ?_ (fun hc => absurd hc (by simp [bumpSize])) ?_
        · rw [bumpSize_length]
          exact hj
        · intro pa hpa
          rcases List.mem_cons.mp hpa with rfl | hmem
          · simp only [List.length_cons] at hj
            constructor
            · omega
            · omega
          · exact hacc pa hmem
    · rw [scanRunAux, if_neg hk]
      refine scanRunAux_assign_bounds mk key j0 rest (key it) (j + 1) (mk it :: accU)
        ((it.1, j) :: accA) ?_ (fun hc => absurd hc (by simp)) ?_
      · simp only [List.length_cons]
        omega
      · intro pa hpa
        rcases List.mem_cons.mp hpa with rfl | hmem
        · constructor
          · omega
          · omega
        · have := hacc pa hmem
          omega

theorem scanRunAux_assign_fst (mk : ℕ × ℤ × ℤ → UnitRec) (key : ℕ × ℤ × ℤ → ℤ) :
    ∀ (items : List (ℕ × ℤ × ℤ)) (prev : ℤ) (j : ℕ) (accU : List UnitRec)
      (accA : List (ℕ × ℕ)),
      ((scanRunAux mk key items prev j accU accA).2).map Prod.fst =
        accA.reverse.map Prod.fst ++ items.map (fun it => it.1)
  | [], prev, j, accU, accA => by
    simp [scanRunAux]
  | it :: rest, prev, j, accU, accA => by
    by_cases hk : key it = prev
    · rw [scanRunAux, if_pos hk]
      rw [scanRunAux_assign_fst mk key rest prev j (bumpSize accU) ((it.1, j - 1) :: accA)]
      simp [List.reverse_cons, List.append_assoc]
    · rw [scanRunAux, if_neg hk]
      rw [scanRunAux_assign_fst mk key rest (key it) (j + 1) (mk it :: accU) ((it.1, j) :: accA)]
      simp [List.reverse_cons, List.append_assoc]

theorem scanRunAux_grid (mk : ℕ × ℤ × ℤ → UnitRec) (key : ℕ × ℤ × ℤ → ℤ) (c : ℕ)
    (hmk : ∀ it, (mk it).grid = c) :
    ∀ (items : List (ℕ × ℤ × ℤ)) (prev : ℤ) (j : ℕ) (accU : List UnitRec)
      (accA : List (ℕ × ℕ)),
      (∀ u ∈ accU, u.grid = c) →
      ∀ u ∈ (scanRunAux mk key items prev j accU accA).1, u.grid = c
  | [], prev, j, accU, accA, hacc => by
    simp only [scanRunAux]
    intro u hu
    exact hacc u (List.mem_reverse.mp hu)
  | it :: rest, prev, j, accU, accA, hacc => by
    by_cases hk : key it = prev
    · rw [scanRunAux, if_pos hk]
      exact scanRunAux_grid mk key c hmk rest prev j (bumpSize accU) _
        (bumpSize_grid accU c hacc)
    · rw [scanRunAux, if_neg hk]
      refine scanRunAux_grid mk key c hmk rest (key it) (j + 1) (mk it :: accU) _ ?_
      intro u hu
      rcases List.mem_cons.mp hu with rfl | hmem
      · exact hmk it
      · exact hacc u hmem

theorem items_lu_mem (cf cl : List ℤ) (it : ℕ × ℤ × ℤ) (hit : it ∈ (cf.zip cl).enum) :
    it.2.2 ∈ cl := by
  obtain ⟨i, p⟩ := it
  obtain ⟨hlt, hx⟩ := List.mem_enum hit
  have hp : (p.1, p.2) ∈ cf.zip cl := by
    rw [Prod.mk.eta, hx]
    exact List.getElem_mem hlt
  exact (List.of_mem_zip hp).2

theorem processCell_ok (farms lus : List (List ℤ)) (s y x j ccc : ℕ) (cr : CellRes)
    (hf : (cellSlice farms s y x).length = s * s)
    (hl : (cellSlice lus s y x).length = s * s)
    (hok : processCell farms lus s y x j ccc = .ok cr) :
    sizeSum cr.units = s * s ∧ cr.block.length = s * s ∧
    (∀ v ∈ cr.block, j ≤ v ∧ v < j + cr.units.length) ∧
    (∀ u ∈ cr.units, u.grid = ccc) := by
  unfold processCell at hok
  split at hok
  case isFalse => cases hok
  case isTrue hdom =>
  have hcr : cr = processCellCore farms lus s y x j ccc := (Except.ok.inj hok).symm
  subst hcr
  set cf := cellSlice farms s y x with hcf
  set cl := cellSlice lus s y x with hcl
  set items := (cf.zip cl).enum with hitems
  set owned := (List.insertionSort farmOrder items).filter (fun it => !decide (it.2.1 = -1))
    with howned
  set resO := scanRun (mkOwned ccc) (fun it => it.2.1) owned (-1) j with hresO
  set unowned := (List.insertionSort luOrder items).filter (fun it => decide (it.2.1 = -1))
    with hunowned
  set resU := scanRun (mkUnowned ccc) (fun it => it.2.2) unowned (-1) (j + resO.1.length)
    with hresU
  have hcore : processCellCore farms lus s y x j ccc =
      ⟨resO.1 ++ resU.1, (List.range (s * s)).map (findAssign (resO.2 ++ resU.2))⟩ := rfl
  have hitems_len : items.length = s * s := by
    rw [hitems, List.enum_length, List.length_zip, hf, hl, min_self]
  have hmem_items_lu : ∀ it ∈ items, it.2.2 = 0 ∨ it.2.2 = 1 ∨ it.2.2 = 4 ∨ it.2.2 = 5 := by
    intro it hit
    have hmem : it.2.2 ∈ cl := by
      rw [hitems] at hit
      exact items_lu_mem cf cl it hit
    have h2 := List.all_eq_true.mp hdom _ hmem
    simp only [beq_iff_eq, Bool.or_eq_true] at h2
    tauto
  have howned_key : ∀ it ∈ owned, it.2.1 ≠ -1 := by
    intro it hit
    rw [howned] at hit
    have := (List.mem_filter.mp hit).2
    simpa using this
  have hunowned_sub : ∀ it ∈ unowned, it ∈ items := by
    intro it hit
    rw [hunowned] at hit
    exact (List.perm_insertionSort luOrder items).mem_iff.mp (List.mem_filter.mp hit).1
  have hunowned_key : ∀ it ∈ unowned, it.2.2 ≠ -1 := by
    intro it hit
    rcases hmem_items_lu it (hunowned_sub it hit) with h | h | h | h <;> omega
  have hpart : owned.length + unowned.length = s * s := by
    rw [howned, hunowned, ← List.countP_eq_length_filter, ← List.countP_eq_length_filter,
      (List.perm_insertionSort farmOrder items).countP_eq,
      (List.perm_insertionSort luOrder items).countP_eq]
    have h := List.length_eq_countP_add_countP (fun it : ℕ × ℤ × ℤ => decide (it.2.1 = -1)) items
    have hcong : items.countP (fun a : ℕ × ℤ × ℤ => decide ¬(decide (a.2.1 = -1) = true)) =
        items.countP (fun it : ℕ × ℤ × ℤ => !decide (it.2.1 = -1)) := by
      refine List.countP_congr ?_
      intro a _
      cases hdec : decide (a.2.1 = -1) <;> simp [hdec]
    rw [hcong] at h
    rw [hitems_len] at h
    omega
  have hOsum : sizeSum resO.1 = owned.length := by
    have h := scanRunAux_sizeSum (mkOwned ccc) (fun it => it.2.1) (fun _ => rfl) owned (-1) j [] []
      (fun _ it hit => howned_key it hit)
    simpa [hresO, scanRun, sizeSum] using h
  have hUsum : sizeSum resU.1 = unowned.length := by
    have h := scanRunAux_sizeSum (mkUnowned ccc) (fun it => it.2.2) (fun _ => rfl) unowned (-1)
      (j + resO.1.length) [] [] (fun _ it hit => hunowned_key it hit)
    simpa [hresU, scanRun, sizeSum] using h
  refine ⟨?_, ?_, ?_, ?_⟩
  · rw [hcore]
    show sizeSum (resO.1 ++ resU.1) = s * s
    rw [sizeSum_append, hOsum, hUsum]
    exact hpart
  · rw [hcore]
    simp
  · rw [hcore]
    intro v hv
    simp only [List.mem_map] at hv
    obtain ⟨p, hp, rfl⟩ := hv
    have hprange : p < s * s := List.mem_range.mp hp
    have hfstO : resO.2.map Prod.fst = owned.map (fun it => it.1) := by
      have h := scanRunAux_assign_fst (mkOwned ccc) (fun it => it.2.1) owned (-1) j [] []
      simpa [hresO, scanRun] using h
    have hfstU : resU.2.map Prod.fst = unowned.map (fun it => it.1) := by
      have h := scanRunAux_assign_fst (mkUnowned ccc) (fun it => it.2.2) unowned (-1)
        (j + resO.1.length) [] []
      simpa [hresU, scanRun] using h
    have hperm : ((resO.2 ++ resU.2).map Prod.fst).Perm (items.map (fun it => it.1)) := by
      rw [List.map_append, hfstO, hfstU, ← List.map_append]
      refine List.Perm.map _ ?_
      have h1 : owned.Perm (items.filter (fun it => !decide (it.2.1 = -1))) := by
        rw [howned]
        exact (List.perm_insertionSort farmOrder items).filter _
      have h2 : unowned.Perm (items.filter (fun it => decide (it.2.1 = -1))) := by
        rw [hunowned]
        exact (List.perm_insertionSort luOrder items).filter _
      have h4 := List.filter_append_perm (fun it : ℕ × ℤ × ℤ => decide (it.2.1 = -1)) items
      have h5 : ∀ a : ℕ × ℤ × ℤ, (fun x : ℕ × ℤ × ℤ => !decide (x.2.1 = -1)) a =
          (fun x : ℕ × ℤ × ℤ => !decide (x.2.1 = -1)) a := fun _ => rfl
      have h3 : (items.filter (fun it => !decide (it.2.1 = -1)) ++
          items.filter (fun it => decide (it.2.1 = -1))).Perm items :=
        List.perm_append_comm.trans h4
      exact (h1.append h2).trans h3
    have hfstitems : items.map (fun it => it.1) = List.range (s * s) := by
      rw [hitems]
      have h := List.enum_map_fst (cf.zip cl)
      have h2 : (cf.zip cl).enum.map (fun it => it.1) = (cf.zip cl).enum.map Prod.fst := rfl
      rw [h2, h, List.length_zip, hf, hl, min_self]
    have hpmem : p ∈ (resO.2 ++ resU.2).map Prod.fst := by
      refine hperm.mem_iff.mpr ?_
      rw [hfstitems]
      exact List.mem_range.mpr hprange
    cases hfind : (resO.2 ++ resU.2).find? (fun q => q.1 == p) with
    | none =>
      exfalso
      rw [List.find?_eq_none] at hfind
      obtain ⟨q, hq, hqp⟩ := List.mem_map.mp hpmem
      exact hfind q hq (by simp [hqp])
    | some q =>
      have hq := List.mem_of_find?_eq_some hfind
      have hval : findAssign (resO.2 ++ resU.2) p = q.2 := by
        simp [findAssign, hfind]
      rw [hval]
      have hbO : ∀ pa ∈ resO.2, j ≤ pa.2 ∧ pa.2 < j + resO.1.length :=
        scanRunAux_assign_bounds (mkOwned ccc) (fun it => it.2.1) j owned (-1) j [] []
          (by simp) (fun _ it hit => howned_key it hit) (by simp)
      have hbU : ∀ pa ∈ resU.2, j + resO.1.length ≤ pa.2 ∧
          pa.2 < j + resO.1.length + resU.1.length :=
        scanRunAux_assign_bounds (mkUnowned ccc) (fun it => it.2.2) (j + resO.1.length)
          unowned (-1) (j + resO.1.length) [] [] (by simp)
          (fun _ it hit => hunowned_key it hit) (by simp)
      have hulen : (resO.1 ++ resU.1).length = resO.1.length + resU.1.length :=
        List.length_append _ _
      rcases List.mem_append.mp hq with hmem | hmem
      · have hb := hbO q hmem
        constructor
        · exact hb.1
        · rw [hulen]
          omega
      · have hb := hbU q hmem
        constructor
        · omega
        · rw [hulen]
          omega
  · rw [hcore]
    intro u hu
    rcases List.mem_append.mp hu with hm | hm
    · exact scanRunAux_grid (mkOwned ccc) (fun it => it.2.1) ccc (fun _ => rfl) owned (-1) j [] []
        (by simp) u hm
    · exact scanRunAux_grid (mkUnowned ccc) (fun it => it.2.2) ccc (fun _ => rfl) unowned (-1)
        (j + resO.1.length) [] [] (by simp) u hm

theorem ChunkOK_nil (s j ccc : ℕ) (us : List UnitRec) (unm : List ℕ) :
    ChunkOK s j ccc us [] unm ↔ (us = [] ∧ unm = []) := Iff.rfl

theorem sliceL_append_right {α : Type _} (A B : List α) (a b : ℕ) (h : A.length ≤ a) :
    sliceL (A ++ B) a b = sliceL B (a - A.length) (b - A.length) := by
  rw [sliceL, sliceL]
  have h2 : A.length + (a - A.length) = a := by omega
  have h1 : (A ++ B).drop a = B.drop (a - A.length) := by
    conv_lhs => rw [← h2]
    rw [← List.drop_drop, List.drop_left]
  rw [h1]
  congr 1
  omega

theorem chunkOK_vth_ge : ∀ (vth : List ℕ) (s j ccc : ℕ) (us : List UnitRec) (unm : List ℕ),
    ChunkOK s j ccc us vth unm → ∀ c ∈ vth, j ≤ c
  | [], _, _, _, _, _, _ => by simp
  | c0 :: vth, s, j, ccc, us, unm, h => by
    obtain ⟨u1, us2, b1, unm2, rfl, rfl, hc0, hsz, hbl, hbd, hg, hrec⟩ := h
    intro c hc
    rcases List.mem_cons.mp hc with rfl | hmem
    · omega
    · have := chunkOK_vth_ge vth s (j + u1.length) (ccc + 1) us2 unm2 hrec c hmem
      omega

theorem chunkOK_slice_sizes : ∀ (vth : List ℕ) (i : ℕ) (s j ccc : ℕ) (us : List UnitRec)
    (unm : List ℕ), ChunkOK s j ccc us vth unm → i < vth.length →
    sizeSum (sliceL us (rangeStart j vth i - j) (vth.getD i 0 - j)) = s * s
  | [], i, _, _, _, _, _, _, hi => by simp at hi
  | c0 :: vth, 0, s, j, ccc, us, unm, h, _ => by
    obtain ⟨u1, us2, b1, unm2, rfl, rfl, hc0, hsz, hbl, hbd, hg, hrec⟩ := h
    have h1 : rangeStart j (c0 :: vth) 0 = j := rfl
    have h2 : (c0 :: vth).getD 0 0 = c0 := rfl
    rw [h1, h2, hc0, Nat.sub_self]
    have h3 : j + u1.length - j = u1.length := by omega
    rw [h3, sliceL, List.drop_zero, Nat.sub_zero, List.take_left]
    exact hsz
  | c0 :: vth, i + 1, s, j, ccc, us, unm, h, hi => by
    obtain ⟨u1, us2, b1, unm2, rfl, rfl, hc0, hsz, hbl, hbd, hg, hrec⟩ := h
    have hi' : i < vth.length := by simpa using hi
    have ih := chunkOK_slice_sizes vth i s (j + u1.length) (ccc + 1) us2 unm2 hrec hi'
    have hstart : rangeStart j (c0 :: vth) (i + 1) = rangeStart (j + u1.length) vth i := by
      cases i with
      | zero => simp [rangeStart, hc0]
      | succ i2 => simp [rangeStart]
    have hgetD : (c0 :: vth).getD (i + 1) 0 = vth.getD i 0 := rfl
    have hge : j + u1.length ≤ rangeStart (j + u1.length) vth i := by
      cases i with
      | zero => simp [rangeStart]
      | succ i2 =>
        have hlen : i2 < vth.length := by omega
        have hmem : vth.getD i2 0 ∈ vth := by
          rw [List.getD_eq_getElem vth 0 hlen]
          exact List.getElem_mem hlen
        have := chunkOK_vth_ge vth s (j + u1.length) (ccc + 1) us2 unm2 hrec _ hmem
        simpa [rangeStart] using this
    rw [hstart, hgetD, sliceL_append_right u1 us2 _ _ (by omega)]
    have e1 : rangeStart (j + u1.length) vth i - j - u1.length =
        rangeStart (j + u1.length) vth i - (j + u1.length) := by omega
    have e2 : vth.getD i 0 - j - u1.length = vth.getD i 0 - (j + u1.length) := by omega
    rw [e1, e2]
    exact ih

theorem chunkOK_unm : ∀ (vth : List ℕ) (i : ℕ) (s j ccc : ℕ) (us : List UnitRec)
    (unm : List ℕ), ChunkOK s j ccc us vth unm → i < vth.length →
    ∀ k, i * (s * s) ≤ k → k < (i + 1) * (s * s) →
      rangeStart j vth i ≤ unm.getD k 0 ∧ unm.getD k 0 < vth.getD i 0 ∧
      (us.map (fun u => u.grid)).getD (unm.getD k 0 - j) 0 = ccc + i
  | [], i, _, _, _, _, _, _, hi => by simp at hi
  | c0 :: vth, 0, s, j, ccc, us, unm, h, _ => by
    obtain ⟨u1, us2, b1, unm2, rfl, rfl, hc0, hsz, hbl, hbd, hg, hrec⟩ := h
    intro k hk0 hk1
    have hks : k < s * s := by simpa using hk1
    have hkb : k < b1.length := by omega
    have hunm : (b1 ++ unm2).getD k 0 = b1.getD k 0 := List.getD_append b1 unm2 0 k hkb
    have hvmem : b1.getD k 0 ∈ b1 := by
      rw [List.getD_eq_getElem b1 0 hkb]
      exact List.getElem_mem hkb
    have hvb := hbd _ hvmem
    refine ⟨?_, ?_, ?_⟩
    · rw [hunm]
      exact hvb.1
    · rw [hunm]
      show b1.getD k 0 < c0
      omega
    · rw [hunm]
      have hlt : b1.getD k 0 - j < u1.length := by omega
      have hlt2 : b1.getD k 0 - j < (u1.map (fun u => u.grid)).length := by
        rw [List.length_map]
        exact hlt
      have hsplit : ((u1 ++ us2).map (fun u => u.grid)).getD (b1.getD k 0 - j) 0 =
          (u1.map (fun u => u.grid)).getD (b1.getD k 0 - j) 0 := by
        rw [List.map_append]
        exact List.getD_append _ _ 0 _ hlt2
      rw [hsplit, List.getD_eq_getElem _ 0 hlt2, List.getElem_map]
      have hmem : u1[b1.getD k 0 - j] ∈ u1 := List.getElem_mem hlt
      rw [hg _ hmem]
      omega
  | c0 :: vth, i + 1, s, j, ccc, us, unm, h, hi => by
    obtain ⟨u1, us2, b1, unm2, rfl, rfl, hc0, hsz, hbl, hbd, hg, hrec⟩ := h
    intro k hk0 hk1
    have hi' : i < vth.length := by simpa using hi
    have e1 : (i + 1) * (s * s) = i * (s * s) + s * s := by ring
    have e2 : (i + 1 + 1) * (s * s) = (i + 1) * (s * s) + s * s := by ring
    have hkge : s * s ≤ k := by
      have : i * (s * s) + s * s ≤ k := by rw [← e1]; exact hk0
      omega
    have ih := chunkOK_unm vth i s (j + u1.length) (ccc + 1) us2 unm2 hrec hi' (k - (s * s))
      (by rw [e1] at hk0; omega) (by rw [e2] at hk1; rw [e1]; omega)
    have hunm : (b1 ++ unm2).getD k 0 = unm2.getD (k - (s * s)) 0 := by
      have := List.getD_append_right b1 unm2 0 k (by omega)
      rw [this, hbl]
    have hstart : rangeStart j (c0 :: vth) (i + 1) = rangeStart (j + u1.length) vth i := by
      cases i with
      | zero => simp [rangeStart, hc0]
      | succ i2 => simp [rangeStart]
    have hgetD : (c0 :: vth).getD (i + 1) 0 = vth.getD i 0 := rfl
    have hge : j + u1.length ≤ rangeStart (j + u1.length) vth i := by
      cases i with
      | zero => simp [rangeStart]
      | succ i2 =>
        have hlen : i2 < vth.length := by omega
        have hmem : vth.getD i2 0 ∈ vth := by
          rw [List.getD_eq_getElem vth 0 hlen]
          exact List.getElem_mem hlen
        have := chunkOK_vth_ge vth s (j + u1.length) (ccc + 1) us2 unm2 hrec _ hmem
        simpa [rangeStart] using this
    rw [hunm, hstart, hgetD]
    obtain ⟨ih1, ih2, ih3⟩ := ih
    refine ⟨ih1, ih2, ?_⟩
    have hvge : j + u1.length ≤ unm2.getD (k - (s * s)) 0 := le_trans hge ih1
    have hsplit : ((u1 ++ us2).map (fun u => u.grid)).getD (unm2.getD (k - (s * s)) 0 - j) 0 =
        (us2.map (fun u => u.grid)).getD (unm2.getD (k - (s * s)) 0 - (j + u1.length)) 0 := by
      rw [List.map_append]
      have := List.getD_append_right (u1.map (fun u => u.grid)) (us2.map (fun u => u.grid)) 0
        (unm2.getD (k - (s * s)) 0 - j) (by rw [List.length_map]; omega)
      rw [this, List.length_map]
      congr 1
      omega
    rw [hsplit, ih3]
    omega

theorem buildGo_chunkOK (farms lus : List (List ℤ)) (s : ℕ) :
    ∀ (cells : List (ℕ × ℕ × Bool)) (j ccc : ℕ) (us : List UnitRec) (vth vthU unm : List ℕ),
    (∀ c ∈ cells, c.2.2 = false →
      (cellSlice farms s c.1 c.2.1).length = s * s ∧
      (cellSlice lus s c.1 c.2.1).length = s * s) →
    buildGo farms lus s cells j ccc = .ok (us, vth, vthU, unm) →
    ChunkOK s j ccc us vth unm
  | [], j, ccc, us, vth, vthU, unm, _, hok => by
    simp only [buildGo, Except.ok.injEq, Prod.mk.injEq] at hok
    obtain ⟨h1, h2, _, h4⟩ := hok
    subst h1
    subst h2
    subst h4
    exact ⟨rfl, rfl⟩
  | (y, x, b) :: cells, j, ccc, us, vth, vthU, unm, hcells, hok => by
    rw [buildGo] at hok
    cases b with
    | true =>
      rw [if_pos rfl] at hok
      split at hok
      next us2 vth2 vthU2 unm2 heq =>
        simp only [Except.ok.injEq, Prod.mk.injEq] at hok
        obtain ⟨h1, h2, _, h4⟩ := hok
        subst h1
        subst h2
        subst h4
        exact buildGo_chunkOK farms lus s cells j ccc us2 vth2 vthU2 unm2
          (fun c hc => hcells c (by simp [hc])) heq
      next e heq => exact absurd hok (by simp)
    | false =>
      rw [if_neg (by simp)] at hok
      split at hok
      next e heq => exact absurd hok (by simp)
      next cr heq =>
        split at hok
        next us2 vth2 vthU2 unm2 heq2 =>
          simp only [Except.ok.injEq, Prod.mk.injEq] at hok
          obtain ⟨h1, h2, _, h4⟩ := hok
          subst h1
          subst h2
          subst h4
          have hsh := hcells (y, x, false) (by simp) rfl
          have hpc := processCell_ok farms lus s y x j ccc cr hsh.1 hsh.2 heq
          refine ⟨cr.units, us2, cr.block, unm2, rfl, rfl, rfl, hpc.1, hpc.2.1, hpc.2.2.1,
            hpc.2.2.2, ?_⟩
          exact buildGo_chunkOK farms lus s cells (j + cr.units.length) (ccc + 1) us2 vth2
            vthU2 unm2 (fun c hc => hcells c (by simp [hc])) heq2
        next e2 heq2 => exact absurd hok (by simp)

theorem create_HRUs_inv (farms lus : List (List ℤ)) (mask : List (List Bool)) (s : ℕ)
    (out : Built) (hok : create_HRUs_numba farms lus mask s = .ok out) :
    ∃ us vth vthU unm,
      buildGo farms lus s (cellList mask) 0 0 = .ok (us, vth, vthU, unm) ∧
      sizeSum us = (mask.flatten.length - mask.flatten.countP id) * (s * s) ∧
      out = ⟨us.map (fun u => u.land_use), us.map (fun u => (u.size : ℚ) / ((s * s : ℕ) : ℚ)),
        us.map (fun u => u.owner), us.map (fun u => u.grid), vth, vthU, unm⟩ := by
  unfold create_HRUs_numba at hok
  split at hok
  case isFalse => exact absurd hok (by simp)
  case isTrue h1 =>
  split at hok
  case isFalse => exact absurd hok (by simp)
  case isTrue h2 =>
  split at hok
  next e heq => exact absurd hok (by simp)
  next us vth vthU unm heq =>
  split at hok
  case isFalse => exact absurd hok (by simp)
  case isTrue h3 =>
  exact ⟨us, vth, vthU, unm, heq, h3, (Except.ok.inj hok).symm⟩

theorem sum_map_const_nat {α : Type _} (l : List α) (f : α → ℕ) (m : ℕ)
    (h : ∀ a ∈ l, f a = m) : (l.map f).sum = l.length * m := by
  induction l with
  | nil => simp
  | cons a as ih =>
    simp only [List.map_cons, List.sum_cons, List.length_cons]
    rw [h a (by simp), ih (fun a' ha' => h a' (by simp [ha']))]
    ring

theorem shapeOK_cellSlice (mask : List (List Bool)) (arr : List (List ℤ)) (s : ℕ)
    (hsh : shapeOK mask arr s = true) (y x : ℕ)
    (hy : y < mask.length) (hx : x < (mask.headD []).length) :
    (cellSlice arr s y x).length = s * s := by
  simp only [shapeOK, Bool.and_eq_true, beq_iff_eq, List.all_eq_true] at hsh
  obtain ⟨⟨hlen, hrows⟩, _⟩ := hsh
  rw [cellSlice, List.length_flatten, List.map_map]
  have htake_len : ((arr.drop (y * s)).take s).length = s := by
    rw [List.length_take, List.length_drop, hlen]
    have hys : y * s + s ≤ mask.length * s := by
      calc y * s + s = (y + 1) * s := by ring
        _ ≤ mask.length * s := Nat.mul_le_mul_right s hy
    omega
  have hrow : ∀ r ∈ (arr.drop (y * s)).take s, ((r.drop (x * s)).take s).length = s := by
    intro r hr
    have hrarr : r ∈ arr := List.drop_subset (y * s) arr (List.take_subset s _ hr)
    have hrlen : r.length = (mask.headD []).length * s := hrows r hrarr
    rw [List.length_take, List.length_drop, hrlen]
    have hxs : x * s + s ≤ (mask.headD []).length * s := by
      calc x * s + s = (x + 1) * s := by ring
        _ ≤ (mask.headD []).length * s := Nat.mul_le_mul_right s hx
    omega
  have hcomp : ((arr.drop (y * s)).take s).map
      (List.length ∘ fun row => (row.drop (x * s)).take s) =
      ((arr.drop (y * s)).take s).map (fun row => ((row.drop (x * s)).take s).length) := rfl
  rw [hcomp, sum_map_const_nat _ _ s hrow, htake_len]

theorem cellList_mem (mask : List (List Bool)) (c : ℕ × ℕ × Bool) (hc : c ∈ cellList mask) :
    c.1 < mask.length ∧ c.2.1 < (mask.headD []).length := by
  unfold cellList at hc
  rcases List.mem_flatMap.mp hc with ⟨y, hy, hmem⟩
  rcases List.mem_map.mp hmem with ⟨x, hx, rfl⟩
  exact ⟨List.mem_range.mp hy, List.mem_range.mp hx⟩

theorem sum_map_size_div (l : List UnitRec) (c : ℚ) :
    (l.map (fun u => (u.size : ℚ) / c)).sum = ((sizeSum l : ℕ) : ℚ) / c := by
  induction l with
  | nil => simp [sizeSum]
  | cons u us ih =>
    simp only [List.map_cons, List.sum_cons, ih, sizeSum, List.sum_cons]
    push_cast
    ring

theorem sliceL_map {α β : Type _} (f : α → β) (l : List α) (a b : ℕ) :
    sliceL (l.map f) a b = (sliceL l a b).map f := by
  simp [sliceL, List.map_take, List.map_drop]

/-- C4: for any builder run that returns (inputs passing the size and
land-use-domain `assert`s, rasters of the required rectangular shape,
positive scaling), the per-grid-cell sum of `land_use_ratio` over the
cell's unit range `[prev, var_to_HRU[i])` is exactly 1; equivalently, the
per-unit sub-cell counts total `n_nonmasked_cells * scaling²`, so the whole
`land_use_ratio` sums to the number of non-masked cells. -/
theorem create_HRUs_ratio_sums (farms lus : List (List ℤ)) (mask : List (List Bool))
    (s : ℕ) (out : Built)
    (hs : 0 < s)
    (hshf : shapeOK mask farms s = true)
    (hshl : shapeOK mask lus s = true)
    (hok : create_HRUs_numba farms lus mask s = .ok out) :
    (∀ i, i < out.var_to_HRU.length →
      (sliceL out.land_use_ratio (rangeStart 0 out.var_to_HRU i)
        (out.var_to_HRU.getD i 0)).sum = 1) ∧
    out.land_use_ratio.sum = ((mask.flatten.length - mask.flatten.countP id : ℕ) : ℚ) := by
  obtain ⟨us, vth, vthU, unm, hbuild, hsizes, rfl⟩ := create_HRUs_inv farms lus mask s out hok
  have hcells : ∀ c ∈ cellList mask, c.2.2 = false →
      (cellSlice farms s c.1 c.2.1).length = s * s ∧
      (cellSlice lus s c.1 c.2.1).length = s * s := by
    intro c hc _
    obtain ⟨hy, hx⟩ := cellList_mem mask c hc
    exact ⟨shapeOK_cellSlice mask farms s hshf c.1 c.2.1 hy hx,
      shapeOK_cellSlice mask lus s hshl c.1 c.2.1 hy hx⟩
  have hchunk := buildGo_chunkOK farms lus s (cellList mask) 0 0 us vth vthU unm hcells hbuild
  have hcast : ((s * s : ℕ) : ℚ) ≠ 0 := by
    rw [Nat.cast_ne_zero]
    positivity
  constructor
  · intro i hi
    have hsz := chunkOK_slice_sizes vth i s 0 0 us unm hchunk hi
    simp only [Nat.sub_zero] at hsz
    show (sliceL (us.map (fun u => (u.size : ℚ) / ((s * s : ℕ) : ℚ)))
      (rangeStart 0 vth i) (vth.getD i 0)).sum = 1
    rw [sliceL_map, sum_map_size_div, hsz, div_self hcast]
  · show (us.map (fun u => (u.size : ℚ) / ((s * s : ℕ) : ℚ))).sum =
      ((mask.flatten.length - mask.flatten.countP id : ℕ) : ℚ)
    rw [sum_map_size_div, hsizes, Nat.cast_mul, mul_div_assoc, div_self hcast, mul_one]

/-- Witness for C4 at the concrete scenario with one excluded cell. -/
theorem create_HRUs_ratio_sums_witness :
    0 < 2 ∧ shapeOK maskC7 farmsC7 2 = true ∧ shapeOK maskC7 lusC7 2 = true ∧
    create_HRUs_numba farmsC7 lusC7 maskC7 2 = .ok builtC7 ∧
    ((∀ i, i < builtC7.var_to_HRU.length →
      (sliceL builtC7.land_use_ratio (rangeStart 0 builtC7.var_to_HRU i)
        (builtC7.var_to_HRU.getD i 0)).sum = 1) ∧
    builtC7.land_use_ratio.sum =
      ((maskC7.flatten.length - maskC7.flatten.countP id : ℕ) : ℚ)) :=
  ⟨by decide, by decide, by decide, by with_unfolding_all decide,
    create_HRUs_ratio_sums farmsC7 lusC7 maskC7 2 builtC7 (by decide) (by decide) (by decide)
      (by with_unfolding_all decide)⟩

/-- C9: for any builder run that returns (with rasters of the required
rectangular shape), every sub-cell slot `k` of compressed grid cell `i`
(slots `[i*scaling², (i+1)*scaling²)`) carries a unit index inside cell
`i`'s own range `[prev, var_to_HRU[i])`, and that unit's `HRU_to_grid`
entry is `i` — strictly stronger than the spec's stated range
`[0, unit_count)`. -/
theorem create_HRUs_cell_locality (farms lus : List (List ℤ)) (mask : List (List Bool))
    (s : ℕ) (out : Built)
    (hshf : shapeOK mask farms s = true)
    (hshl : shapeOK mask lus s = true)
    (hok : create_HRUs_numba farms lus mask s = .ok out) :
    ∀ i, i < out.var_to_HRU.length → ∀ k, i * (s * s) ≤ k → k < (i + 1) * (s * s) →
      rangeStart 0 out.var_to_HRU i ≤ out.unmerged_HRU_indices.getD k 0 ∧
      out.unmerged_HRU_indices.getD k 0 < out.var_to_HRU.getD i 0 ∧
      out.HRU_to_grid.getD (out.unmerged_HRU_indices.getD k 0) 0 = i := by
  obtain ⟨us, vth, vthU, unm, hbuild, hsizes, rfl⟩ := create_HRUs_inv farms lus mask s out hok
  have hcells : ∀ c ∈ cellList mask, c.2.2 = false →
      (cellSlice farms s c.1 c.2.1).length = s * s ∧
      (cellSlice lus s c.1 c.2.1).length = s * s := by
    intro c hc _
    obtain ⟨hy, hx⟩ := cellList_mem mask c hc
    exact ⟨shapeOK_cellSlice mask farms s hshf c.1 c.2.1 hy hx,
      shapeOK_cellSlice mask lus s hshl c.1 c.2.1 hy hx⟩
  have hchunk := buildGo_chunkOK farms lus s (cellList mask) 0 0 us vth vthU unm hcells hbuild
  intro i hi k hk0 hk1
  have h := chunkOK_unm vth i s 0 0 us unm hchunk hi k hk0 hk1
  simpa using h

/-- Witness for C9 at the concrete scenario with one excluded cell. -/
theorem create_HRUs_cell_locality_witness :
    shapeOK maskC7 farmsC7 2 = true ∧ shapeOK maskC7 lusC7 2 = true ∧
    create_HRUs_numba farmsC7 lusC7 maskC7 2 = .ok builtC7 ∧
    (∀ i, i < builtC7.var_to_HRU.length → ∀ k, i * (2 * 2) ≤ k → k < (i + 1) * (2 * 2) →
      rangeStart 0 builtC7.var_to_HRU i ≤ builtC7.unmerged_HRU_indices.getD k 0 ∧
      builtC7.unmerged_HRU_indices.getD k 0 < builtC7.var_to_HRU.getD i 0 ∧
      builtC7.HRU_to_grid.getD (builtC7.unmerged_HRU_indices.getD k 0) 0 = i) :=
  ⟨by decide, by decide, by with_unfolding_all decide,
    create_HRUs_cell_locality farmsC7 lusC7 maskC7 2 builtC7 (by decide) (by decide)
      (by with_unfolding_all decide)⟩

/-! ### Splitter lemmas (toward C6) -/

theorem length_take_of_le {α : Type _} (a : List α) (i : ℕ) (h : i ≤ a.length) :
    (a.take i).length = i := by
  rw [List.length_take]
  omega

theorem sliceL_append_left {α : Type _} (A B : List α) (a b : ℕ) (h : b ≤ A.length) :
    sliceL (A ++ B) a b = sliceL A a b := by
  rw [sliceL, sliceL, List.drop_append_eq_append_drop, List.take_append_eq_append_take]
  rw [List.length_drop]
  have e : b - a - (A.length - a) = 0 := by omega
  rw [e, List.take_zero, List.append_nil]

theorem sliceL_take {α : Type _} (l : List α) (m a b : ℕ) (h : b ≤ m) :
    sliceL (l.take m) a b = sliceL l a b := by
  rw [sliceL, sliceL, List.drop_take, List.take_take]
  congr 1
  omega

theorem sliceL_drop_shift {α : Type _} (l : List α) (m a b : ℕ) (h : m ≤ a) :
    sliceL (l.drop m) (a - m) (b - m) = sliceL l a b := by
  rw [sliceL, sliceL, List.drop_drop]
  have e1 : m + (a - m) = a := by omega
  rw [e1]
  congr 1
  omega

theorem sliceL_split {α : Type _} (l : List α) (a b c : ℕ) (hab : a ≤ b) (hbc : b ≤ c) :
    sliceL l a c = sliceL l a b ++ sliceL l b c := by
  rw [sliceL, sliceL, sliceL]
  have e : c - a = (b - a) + (c - b) := by omega
  rw [e, List.take_add, List.drop_drop]
  have e2 : a + (b - a) = b := by omega
  rw [e2]

theorem sliceL_singleton {α : Type _} (l : List α) (d : α) (i : ℕ) (hi : i < l.length) :
    sliceL l i (i + 1) = [l.getD i d] := by
  rw [sliceL]
  have e : i + 1 - i = 1 := by omega
  rw [e, List.drop_eq_getElem_cons hi, List.getD_eq_getElem l d hi]
  rfl

theorem np_insert_length {α : Type _} (a : List α) (i : ℕ) (v : α) (h : i ≤ a.length) :
    (np_insert a i v).length = a.length + 1 := by
  rw [np_insert]
  simp only [List.length_append, List.length_cons, List.length_drop]
  rw [length_take_of_le a i h]
  omega

theorem np_insert_getD_lt {α : Type _} (a : List α) (i : ℕ) (v : α) (k : ℕ) (d : α)
    (hk : k < i) (hi : i ≤ a.length) :
    (np_insert a i v).getD k d = a.getD k d := by
  have hlt : k < (a.take i).length := by
    rw [length_take_of_le a i hi]
    exact hk
  rw [np_insert, List.getD_append _ _ d k hlt, List.getD_eq_getElem _ d hlt,
    List.getD_eq_getElem a d (by omega), List.getElem_take]

theorem np_insert_getD_self {α : Type _} (a : List α) (i : ℕ) (v : α) (d : α)
    (hi : i ≤ a.length) :
    (np_insert a i v).getD i d = v := by
  rw [np_insert, List.getD_append_right _ _ d i (by rw [length_take_of_le a i hi])]
  rw [length_take_of_le a i hi, Nat.sub_self]
  rfl

theorem np_insert_getD_succ {α : Type _} (a : List α) (i : ℕ) (v : α) (d : α)
    (hi : i < a.length) :
    (np_insert a i v).getD (i + 1) d = a.getD i d := by
  have hlen : (a.take i).length = i := length_take_of_le a i (le_of_lt hi)
  rw [np_insert, List.getD_append_right _ _ d (i + 1) (by rw [hlen]; omega), hlen]
  have e : i + 1 - i = 1 := by omega
  rw [e]
  have hdrop : a.drop i = a.getD i d :: a.drop (i + 1) := by
    rw [List.getD_eq_getElem a d hi]
    exact List.drop_eq_getElem_cons hi
  rw [hdrop]
  rfl

theorem np_insert_getD_gt {α : Type _} (a : List α) (i : ℕ) (v : α) (k : ℕ) (d : α)
    (hk : i < k) (hka : k ≤ a.length) :
    (np_insert a i v).getD k d = a.getD (k - 1) d := by
  have hi : i ≤ a.length := by omega
  have hlen : (a.take i).length = i := length_take_of_le a i hi
  rw [np_insert, List.getD_append_right _ _ d k (by rw [hlen]; omega), hlen]
  have e : k - i = (k - i - 1) + 1 := by omega
  rw [e]
  show (a.drop i).getD (k - i - 1) d = a.getD (k - 1) d
  have hkd : k - i - 1 < (a.drop i).length ∨ a.length ≤ k - 1 := by
    rw [List.length_drop]
    omega
  rcases Nat.lt_or_ge (k - 1) a.length with hlt | hge
  · have hd : k - i - 1 < (a.drop i).length := by
      rw [List.length_drop]
      omega
    rw [List.getD_eq_getElem _ d hd, List.getD_eq_getElem a d hlt, List.getElem_drop]
    congr 1
    omega
  · have h1 : a.length ≤ k - 1 := hge
    have h2 : (a.drop i).length ≤ k - i - 1 := by
      rw [List.length_drop]
      omega
    rw [List.getD_eq_default _ d h2, List.getD_eq_default a d h1]

theorem addOneFrom_length (l : List ℕ) (c : ℕ) (hc : c ≤ l.length) :
    (addOneFrom l c).length = l.length := by
  rw [addOneFrom]
  simp only [List.length_append, List.length_map, List.length_drop]
  rw [length_take_of_le l c hc]
  omega

theorem addOneFrom_getD_lt (l : List ℕ) (c k : ℕ) (hk : k < c) (hc : c ≤ l.length) :
    (addOneFrom l c).getD k 0 = l.getD k 0 := by
  have hlt : k < (l.take c).length := by
    rw [length_take_of_le l c hc]
    exact hk
  rw [addOneFrom, List.getD_append _ _ 0 k hlt, List.getD_eq_getElem _ 0 hlt,
    List.getD_eq_getElem l 0 (by omega), List.getElem_take]

theorem addOneFrom_getD_ge (l : List ℕ) (c k : ℕ) (hk : c ≤ k) (hkl : k < l.length) :
    (addOneFrom l c).getD k 0 = l.getD k 0 + 1 := by
  have hc : c ≤ l.length := by omega
  have hlen : (l.take c).length = c := length_take_of_le l c hc
  rw [addOneFrom, List.getD_append_right _ _ 0 k (by rw [hlen]; omega), hlen]
  have hd : k - c < ((l.drop c).map (· + 1)).length := by
    rw [List.length_map, List.length_drop]
    omega
  have hd2 : k - c < (l.drop c).length := by
    rw [List.length_drop]
    omega
  rw [List.getD_eq_getElem _ 0 hd, List.getElem_map, List.getElem_drop]
  have e : c + (k - c) = k := by omega
  simp only [e]
  rw [List.getD_eq_getElem l 0 hkl]

theorem chainLE_le_all : ∀ (l : List ℕ) (p : ℕ), chainLE p l = true → ∀ c ∈ l, p ≤ c
  | [], _, _ => by simp
  | c :: cs, p, h => by
    simp only [chainLE, Bool.and_eq_true, decide_eq_true_eq] at h
    intro c' hc'
    rcases List.mem_cons.mp hc' with rfl | hmem
    · exact h.1
    · exact le_trans h.1 (chainLE_le_all cs c h.2 c' hmem)

theorem chainLE_getD_mono : ∀ (l : List ℕ) (p : ℕ), chainLE p l = true →
    ∀ i1 i2, i1 ≤ i2 → i2 < l.length → l.getD i1 0 ≤ l.getD i2 0
  | [], _, _, _, _, _, hi => by simp at hi
  | c :: cs, p, h, i1, i2, h12, hi2 => by
    simp only [chainLE, Bool.and_eq_true, decide_eq_true_eq] at h
    cases i1 with
    | zero =>
      cases i2 with
      | zero => exact le_refl _
      | succ k =>
        show c ≤ cs.getD k 0
        have hk : k < cs.length := by simpa using hi2
        have hmem : cs.getD k 0 ∈ cs := by
          rw [List.getD_eq_getElem cs 0 hk]
          exact List.getElem_mem hk
        exact chainLE_le_all cs c h.2 _ hmem
    | succ k1 =>
      cases i2 with
      | zero => omega
      | succ k2 =>
        show cs.getD k1 0 ≤ cs.getD k2 0
        exact chainLE_getD_mono cs c h.2 k1 k2 (by omega) (by simpa using hi2)

theorem pair_insert_spec (a : List ℚ) (i : ℕ) (p1 p2 : ℚ) (hi : i < a.length) :
    (a.take i ++ p1 :: p2 :: a.drop (i + 1)).length = a.length + 1 ∧
    (∀ k, k < i → (a.take i ++ p1 :: p2 :: a.drop (i + 1)).getD k 0 = a.getD k 0) ∧
    (a.take i ++ p1 :: p2 :: a.drop (i + 1)).getD i 0 = p1 ∧
    (a.take i ++ p1 :: p2 :: a.drop (i + 1)).getD (i + 1) 0 = p2 ∧
    (∀ k, i < k → k < a.length →
      (a.take i ++ p1 :: p2 :: a.drop (i + 1)).getD (k + 1) 0 = a.getD k 0) := by
  have hAlen : (a.take i).length = i := length_take_of_le a i (le_of_lt hi)
  refine ⟨?_, ?_, ?_, ?_, ?_⟩
  · simp only [List.length_append, List.length_cons, List.length_drop, hAlen]
    omega
  · intro k hk
    have hlt : k < (a.take i).length := by rw [hAlen]; exact hk
    rw [List.getD_append _ _ 0 k hlt, List.getD_eq_getElem _ 0 hlt,
      List.getD_eq_getElem a 0 (by omega), List.getElem_take]
  · rw [List.getD_append_right _ _ 0 i (by rw [hAlen]), hAlen, Nat.sub_self]
    rfl
  · rw [List.getD_append_right _ _ 0 (i + 1) (by rw [hAlen]; omega), hAlen]
    have e : i + 1 - i = 1 := by omega
    rw [e]
    rfl
  · intro k hki hka
    rw [List.getD_append_right _ _ 0 (k + 1) (by rw [hAlen]; omega), hAlen]
    have e : k + 1 - i = (k - i - 1) + 2 := by omega
    rw [e]
    show (a.drop (i + 1)).getD (k - i - 1) 0 = a.getD k 0
    have hd : k - i - 1 < (a.drop (i + 1)).length := by
      rw [List.length_drop]
      omega
    rw [List.getD_eq_getElem _ 0 hd, List.getElem_drop, List.getD_eq_getElem a 0 hka]
    congr 1
    omega

theorem split_HRU_data_some_eq (a : List ℚ) (i : ℕ) (t : ℚ) (hi : i < a.length) :
    split_HRU_data a i (some t) =
      a.take i ++ (a.getD i 0 * t) :: ((1 - t) * a.getD i 0) :: a.drop (i + 1) := by
  simp only [split_HRU_data]
  rw [np_insert_getD_succ a i _ 0 hi, np_insert]
  have hdrop : a.drop i = a.getD i 0 :: a.drop (i + 1) := by
    rw [List.getD_eq_getElem a 0 hi]
    exact List.drop_eq_getElem_cons hi
  rw [hdrop, List.set_append, length_take_of_le a i (le_of_lt hi), if_neg (by omega)]
  have e : i + 1 - i = 1 := by omega
  rw [e]
  rfl

theorem split_HRU_inv (st : HRUState) (index : ℕ) (st' : HRUState)
    (hsp : split_HRU st index = some st') :
    ∃ att : ℚ, 0 < att ∧ att < 1 ∧
      st'.land_use_type = split_HRU_data_id st.land_use_type 0 index ∧
      st'.land_use_ratio = split_HRU_data st.land_use_ratio index (some att) ∧
      st'.HRU_to_grid = split_HRU_data_id st.HRU_to_grid 0 index ∧
      st'.var_to_HRU = addOneFrom st.var_to_HRU
        ((split_HRU_data_id st.HRU_to_grid 0 index).getD index 0) := by
  simp only [split_HRU] at hsp
  split at hsp
  case isFalse => exact absurd hsp (by simp)
  case isTrue hguard =>
  set sidx := (List.range st.unmerged_HRU_indices.length).filter
    (fun k => st.unmerged_HRU_indices.getD k 0 == 0) with hsidx
  obtain ⟨hg1, hg2⟩ := hguard
  have hst := (Option.some.inj hsp).symm
  have hlenpos : (0 : ℚ) < (sidx.length : ℚ) := by
    rw [Nat.cast_pos]
    omega
  refine ⟨((sidx.length / 2 : ℕ) : ℚ) / (sidx.length : ℚ), ?_, ?_, ?_, ?_, ?_, ?_⟩
  · refine div_pos ?_ hlenpos
    rw [Nat.cast_pos]
    exact hg1
  · rw [div_lt_one hlenpos, Nat.cast_lt]
    exact hg2
  · rw [hst]
  · rw [hst]
  · rw [hst]
  · rw [hst]

theorem split_ratio_cell_sums (ratio : List ℚ) (vth : List ℕ) (index : ℕ) (t : ℚ)
    (cstar : ℕ)
    (hN : index < ratio.length)
    (hch : chainLE 0 vth = true)
    (hbound : ∀ c ∈ vth, c ≤ ratio.length)
    (hcix : cstar < vth.length)
    (hc1 : rangeStart 0 vth cstar ≤ index)
    (hc2 : index < vth.getD cstar 0) :
    ∀ i, i < vth.length →
      (sliceL (ratio.take index ++ (ratio.getD index 0 * t) ::
        ((1 - t) * ratio.getD index 0) :: ratio.drop (index + 1))
        (rangeStart 0 (addOneFrom vth cstar) i) ((addOneFrom vth cstar).getD i 0)).sum =
      (sliceL ratio (rangeStart 0 vth i) (vth.getD i 0)).sum := by
  intro i hi
  have hcle : cstar ≤ vth.length := le_of_lt hcix
  have hAlen : (ratio.take index).length = index := length_take_of_le ratio index (le_of_lt hN)
  have hpre : ∀ a b, b ≤ index →
      sliceL (ratio.take index ++ (ratio.getD index 0 * t) ::
        ((1 - t) * ratio.getD index 0) :: ratio.drop (index + 1)) a b = sliceL ratio a b := by
    intro a b hb
    rw [sliceL_append_left _ _ a b (by rw [hAlen]; exact hb), sliceL_take ratio index a b hb]
  have hRassoc : ratio.take index ++ (ratio.getD index 0 * t) ::
      ((1 - t) * ratio.getD index 0) :: ratio.drop (index + 1) =
      (ratio.take index ++ [ratio.getD index 0 * t, (1 - t) * ratio.getD index 0]) ++
        ratio.drop (index + 1) := by
    simp
  have hPlen : (ratio.take index ++ [ratio.getD index 0 * t,
      (1 - t) * ratio.getD index 0]).length = index + 2 := by
    simp [hAlen]
  have hsuf : ∀ a b, index + 1 ≤ a →
      sliceL (ratio.take index ++ (ratio.getD index 0 * t) ::
        ((1 - t) * ratio.getD index 0) :: ratio.drop (index + 1)) (a + 1) (b + 1) =
      sliceL ratio a b := by
    intro a b ha
    rw [hRassoc, sliceL_append_right _ _ (a + 1) (b + 1) (by rw [hPlen]; omega), hPlen]
    have e1 : a + 1 - (index + 2) = a - (index + 1) := by omega
    have e2 : b + 1 - (index + 2) = b - (index + 1) := by omega
    rw [e1, e2, sliceL_drop_shift ratio (index + 1) a b ha]
  rcases Nat.lt_trichotomy i cstar with hlt | heq | hgt
  · have hrs : rangeStart 0 vth cstar = vth.getD (cstar - 1) 0 := by
      rw [rangeStart, if_neg (by omega)]
    have hble : vth.getD i 0 ≤ index := by
      have hmono := chainLE_getD_mono vth 0 hch i (cstar - 1) (by omega) (by omega)
      rw [hrs] at hc1
      omega
    have hvth'i : (addOneFrom vth cstar).getD i 0 = vth.getD i 0 :=
      addOneFrom_getD_lt vth cstar i hlt hcle
    have hrs' : rangeStart 0 (addOneFrom vth cstar) i = rangeStart 0 vth i := by
      cases i with
      | zero => rfl
      | succ k =>
        show (addOneFrom vth cstar).getD k 0 = vth.getD k 0
        exact addOneFrom_getD_lt vth cstar k (by omega) hcle
    rw [hvth'i, hrs', hpre _ _ hble]
  · subst heq
    have hvth'i : (addOneFrom vth i).getD i 0 = vth.getD i 0 + 1 :=
      addOneFrom_getD_ge vth i i (le_refl _) hi
    have hrs' : rangeStart 0 (addOneFrom vth i) i = rangeStart 0 vth i := by
      cases i with
      | zero => rfl
      | succ k =>
        show (addOneFrom vth (k + 1)).getD k 0 = vth.getD k 0
        exact addOneFrom_getD_lt vth (k + 1) k (by omega) hcle
    rw [hvth'i, hrs']
    have hBr : vth.getD i 0 ≤ ratio.length := by
      refine hbound _ ?_
      rw [List.getD_eq_getElem vth 0 hi]
      exact List.getElem_mem hi
    have h1 : (sliceL (ratio.take index ++ (ratio.getD index 0 * t) ::
        ((1 - t) * ratio.getD index 0) :: ratio.drop (index + 1))
        (rangeStart 0 vth i) (vth.getD i 0 + 1)).sum =
        (sliceL (ratio.take index ++ (ratio.getD index 0 * t) ::
          ((1 - t) * ratio.getD index 0) :: ratio.drop (index + 1))
          (rangeStart 0 vth i) index).sum +
        (sliceL (ratio.take index ++ (ratio.getD index 0 * t) ::
          ((1 - t) * ratio.getD index 0) :: ratio.drop (index + 1)) index (index + 2)).sum +
        (sliceL (ratio.take index ++ (ratio.getD index 0 * t) ::
          ((1 - t) * ratio.getD index 0) :: ratio.drop (index + 1)) (index + 2)
          (vth.getD i 0 + 1)).sum := by
      rw [sliceL_split _ (rangeStart 0 vth i) index (vth.getD i 0 + 1) hc1 (by omega),
        List.sum_append, sliceL_split _ index (index + 2) (vth.getD i 0 + 1) (by omega)
          (by omega), List.sum_append]
      ring
    have h2 : (sliceL ratio (rangeStart 0 vth i) (vth.getD i 0)).sum =
        (sliceL ratio (rangeStart 0 vth i) index).sum +
        (sliceL ratio index (index + 1)).sum +
        (sliceL ratio (index + 1) (vth.getD i 0)).sum := by
      rw [sliceL_split ratio (rangeStart 0 vth i) index (vth.getD i 0) hc1 (by omega),
        List.sum_append, sliceL_split ratio index (index + 1) (vth.getD i 0) (by omega)
          (by omega), List.sum_append]
      ring
    have hmidR : sliceL (ratio.take index ++ (ratio.getD index 0 * t) ::
        ((1 - t) * ratio.getD index 0) :: ratio.drop (index + 1)) index (index + 2) =
        [ratio.getD index 0 * t, (1 - t) * ratio.getD index 0] := by
      rw [sliceL, List.drop_left' hAlen]
      have e : index + 2 - index = 2 := by omega
      rw [e]
      rfl
    have hmidr : sliceL ratio index (index + 1) = [ratio.getD index 0] :=
      sliceL_singleton ratio 0 index hN
    have hsufR := hsuf (index + 1) (vth.getD i 0) (le_refl _)
    rw [h1, h2, hpre _ index (le_refl index), hmidR, hmidr, hsufR]
    simp only [List.sum_cons, List.sum_nil]
    ring
  · have hvth'i : (addOneFrom vth cstar).getD i 0 = vth.getD i 0 + 1 :=
      addOneFrom_getD_ge vth cstar i (by omega) hi
    have hrs' : rangeStart 0 (addOneFrom vth cstar) i = vth.getD (i - 1) 0 + 1 := by
      rw [rangeStart, if_neg (by omega)]
      exact addOneFrom_getD_ge vth cstar (i - 1) (by omega) (by omega)
    have hrsv : rangeStart 0 vth i = vth.getD (i - 1) 0 := by
      rw [rangeStart, if_neg (by omega)]
    have hage : index + 1 ≤ vth.getD (i - 1) 0 := by
      have hmono := chainLE_getD_mono vth 0 hch cstar (i - 1) (by omega) (by omega)
      omega
    rw [hvth'i, hrs', hrsv, hsuf (vth.getD (i - 1) 0) (vth.getD i 0) hage]

/-- C6: after a successful `split_HRU(index)` on a consistent state, the
unit count of `land_use_ratio`, `land_use_type` and `HRU_to_grid` grows by
one; every old unit position other than `index` keeps its values (at `p`
for `p < index`, at `p + 1` for `p > index`); positions `index` and
`index + 1` carry the split pair (`att`-scaled ratios, duplicated land-use
type and grid link); and every grid cell's `land_use_ratio` sum over its
(shifted) unit range is unchanged. -/
theorem split_HRU_effects (st : HRUState) (index : ℕ) (st' : HRUState)
    (hsp : split_HRU st index = some st')
    (hN : index < st.land_use_ratio.length)
    (hlenT : st.land_use_type.length = st.land_use_ratio.length)
    (hlenG : st.HRU_to_grid.length = st.land_use_ratio.length)
    (hch : chainLE 0 st.var_to_HRU = true)
    (hbound : ∀ c ∈ st.var_to_HRU, c ≤ st.land_use_ratio.length)
    (hcix : st.HRU_to_grid.getD index 0 < st.var_to_HRU.length)
    (hc1 : rangeStart 0 st.var_to_HRU (st.HRU_to_grid.getD index 0) ≤ index)
    (hc2 : index < st.var_to_HRU.getD (st.HRU_to_grid.getD index 0) 0) :
    st'.land_use_ratio.length = st.land_use_ratio.length + 1 ∧
    st'.land_use_type.length = st.land_use_type.length + 1 ∧
    st'.HRU_to_grid.length = st.HRU_to_grid.length + 1 ∧
    (∀ p, p < st.land_use_ratio.length → p ≠ index →
      st'.land_use_ratio.getD (if p < index then p else p + 1) 0 =
        st.land_use_ratio.getD p 0 ∧
      st'.land_use_type.getD (if p < index then p else p + 1) 0 =
        st.land_use_type.getD p 0 ∧
      st'.HRU_to_grid.getD (if p < index then p else p + 1) 0 =
        st.HRU_to_grid.getD p 0) ∧
    (∃ att : ℚ, 0 < att ∧ att < 1 ∧
      st'.land_use_ratio.getD index 0 = st.land_use_ratio.getD index 0 * att ∧
      st'.land_use_ratio.getD (index + 1) 0 =
        (1 - att) * st.land_use_ratio.getD index 0) ∧
    st'.land_use_type.getD index 0 = st.land_use_type.getD index 0 ∧
    st'.land_use_type.getD (index + 1) 0 = st.land_use_type.getD index 0 ∧
    st'.HRU_to_grid.getD index 0 = st.HRU_to_grid.getD index 0 ∧
    st'.HRU_to_grid.getD (index + 1) 0 = st.HRU_to_grid.getD index 0 ∧
    st'.var_to_HRU.length = st.var_to_HRU.length ∧
    (∀ i, i < st.var_to_HRU.length →
      (sliceL st'.land_use_ratio (rangeStart 0 st'.var_to_HRU i)
        (st'.var_to_HRU.getD i 0)).sum =
      (sliceL st.land_use_ratio (rangeStart 0 st.var_to_HRU i)
        (st.var_to_HRU.getD i 0)).sum) := by
  obtain ⟨att, hpos, hlt1, htype, hratio, hgrid, hvth⟩ := split_HRU_inv st index st' hsp
  have hNT : index < st.land_use_type.length := by omega
  have hNG : index < st.HRU_to_grid.length := by omega
  have hcstar : (split_HRU_data_id st.HRU_to_grid 0 index).getD index 0 =
      st.HRU_to_grid.getD index 0 := by
    rw [split_HRU_data_id]
    exact np_insert_getD_self st.HRU_to_grid index _ 0 (le_of_lt hNG)
  rw [hcstar] at hvth
  have hratio_eq : st'.land_use_ratio = st.land_use_ratio.take index ++
      (st.land_use_ratio.getD index 0 * att) ::
      ((1 - att) * st.land_use_ratio.getD index 0) ::
      st.land_use_ratio.drop (index + 1) := by
    rw [hratio, split_HRU_data_some_eq _ _ _ hN]
  obtain ⟨hrlen, hrlt, hrat_i, hrat_i1, hrgt⟩ :=
    pair_insert_spec st.land_use_ratio index (st.land_use_ratio.getD index 0 * att)
      ((1 - att) * st.land_use_ratio.getD index 0) hN
  refine ⟨?_, ?_, ?_, ?_, ?_, ?_, ?_, ?_, ?_, ?_, ?_⟩
  · rw [hratio_eq]
    exact hrlen
  · rw [htype, split_HRU_data_id, np_insert_length _ _ _ (le_of_lt hNT)]
  · rw [hgrid, split_HRU_data_id, np_insert_length _ _ _ (le_of_lt hNG)]
  · intro p hp hpne
    by_cases hplt : p < index
    · rw [if_pos hplt, hratio_eq, htype, hgrid, split_HRU_data_id, split_HRU_data_id]
      exact ⟨hrlt p hplt,
        np_insert_getD_lt st.land_use_type index _ p 0 hplt (le_of_lt hNT),
        np_insert_getD_lt st.HRU_to_grid index _ p 0 hplt (le_of_lt hNG)⟩
    · have hpgt : index < p := by omega
      rw [if_neg hplt, hratio_eq, htype, hgrid, split_HRU_data_id, split_HRU_data_id]
      exact ⟨hrgt p hpgt hp,
        np_insert_getD_gt st.land_use_type index _ (p + 1) 0 (by omega) (by omega),
        np_insert_getD_gt st.HRU_to_grid index _ (p + 1) 0 (by omega) (by omega)⟩
  · exact ⟨att, hpos, hlt1, by rw [hratio_eq]; exact hrat_i, by rw [hratio_eq]; exact hrat_i1⟩
  · rw [htype, split_HRU_data_id]
    exact np_insert_getD_self st.land_use_type index _ 0 (le_of_lt hNT)
  · rw [htype, split_HRU_data_id]
    exact np_insert_getD_succ st.land_use_type index _ 0 hNT
  · rw [hgrid, split_HRU_data_id]
    exact np_insert_getD_self st.HRU_to_grid index _ 0 (le_of_lt hNG)
  · rw [hgrid, split_HRU_data_id]
    exact np_insert_getD_succ st.HRU_to_grid index _ 0 hNG
  · rw [hvth]
    exact addOneFrom_length st.var_to_HRU _ (le_of_lt hcix)
  · intro i hi
    rw [hratio_eq, hvth]
    exact split_ratio_cell_sums st.land_use_ratio st.var_to_HRU index att
      (st.HRU_to_grid.getD index 0) hN hch hbound hcix hc1 hc2 i hi

/-- Witness for C6 at the state of spec scenario 7 and split index 0. -/
theorem split_HRU_effects_witness :
    split_HRU stC6 0 = some stC6split ∧
    0 < stC6.land_use_ratio.length ∧
    stC6.land_use_type.length = stC6.land_use_ratio.length ∧
    stC6.HRU_to_grid.length = stC6.land_use_ratio.length ∧
    chainLE 0 stC6.var_to_HRU = true ∧
    (∀ c ∈ stC6.var_to_HRU, c ≤ stC6.land_use_ratio.length) ∧
    stC6.HRU_to_grid.getD 0 0 < stC6.var_to_HRU.length ∧
    rangeStart 0 stC6.var_to_HRU (stC6.HRU_to_grid.getD 0 0) ≤ 0 ∧
    0 < stC6.var_to_HRU.getD (stC6.HRU_to_grid.getD 0 0) 0 ∧
    (stC6split.land_use_ratio.length = stC6.land_use_ratio.length + 1 ∧
    stC6split.land_use_type.length = stC6.land_use_type.length + 1 ∧
    stC6split.HRU_to_grid.length = stC6.HRU_to_grid.length + 1 ∧
    (∀ p, p < stC6.land_use_ratio.length → p ≠ 0 →
      stC6split.land_use_ratio.getD (if p < 0 then p else p + 1) 0 =
        stC6.land_use_ratio.getD p 0 ∧
      stC6split.land_use_type.getD (if p < 0 then p else p + 1) 0 =
        stC6.land_use_type.getD p 0 ∧
      stC6split.HRU_to_grid.getD (if p < 0 then p else p + 1) 0 =
        stC6.HRU_to_grid.getD p 0) ∧
    (∃ att : ℚ, 0 < att ∧ att < 1 ∧
      stC6split.land_use_ratio.getD 0 0 = stC6.land_use_ratio.getD 0 0 * att ∧
      stC6split.land_use_ratio.getD 1 0 = (1 - att) * stC6.land_use_ratio.getD 0 0) ∧
    stC6split.land_use_type.getD 0 0 = stC6.land_use_type.getD 0 0 ∧
    stC6split.land_use_type.getD 1 0 = stC6.land_use_type.getD 0 0 ∧
    stC6split.HRU_to_grid.getD 0 0 = stC6.HRU_to_grid.getD 0 0 ∧
    stC6split.HRU_to_grid.getD 1 0 = stC6.HRU_to_grid.getD 0 0 ∧
    stC6split.var_to_HRU.length = stC6.var_to_HRU.length ∧
    (∀ i, i < stC6.var_to_HRU.length →
      (sliceL stC6split.land_use_ratio (rangeStart 0 stC6split.var_to_HRU i)
        (stC6split.var_to_HRU.getD i 0)).sum =
      (sliceL stC6.land_use_ratio (rangeStart 0 stC6.var_to_HRU i)
        (stC6.var_to_HRU.getD i 0)).sum)) :=
  ⟨by with_unfolding_all decide, by decide, by decide, by decide, by decide,
    by with_unfolding_all decide, by decide, by decide, by decide,
    split_HRU_effects stC6 0 stC6split (by with_unfolding_all decide) (by decide) (by decide)
      (by decide) (by decide) (by with_unfolding_all decide) (by decide) (by decide) (by decide)⟩
